import Mathlib

/-!
# Verification of the `clarus` BinHex 4.0 decoder

A shallow embedding of the streaming BinHex decode pipeline from
`src/binhex/{read,expand,archive}.rs`, together with theorems settling the
frozen claims about it.

Bytes are modelled as `Nat` (with `< 256` hypotheses where a claim needs
them).  Streaming readers are modelled as functions over the remaining byte
list; the sizes of the chunks delivered by an underlying `Read`
implementation (or buffered by a `BufReader`) are captured by explicit
"schedule" functions `Nat → Nat`, clipped to the legal range at each call,
so that quantifying over schedules quantifies over all possible chunkings.
-/

/-- `std::io::ErrorKind`, restricted to the kinds this crate produces. -/
inductive IOErrorKind where
  | invalidData
  | unexpectedEof
  deriving DecidableEq, Repr

/-- `ChecksumSection` from `src/binhex/archive.rs`. -/
inductive ChecksumSection where
  | header
  | dataFork
  | resourceFork
  deriving DecidableEq, Repr

/-- `BinHexError` from `src/binhex/archive.rs`. -/
inductive BinHexError where
  | ioError (kind : IOErrorKind)
  | invalidHeader
  | invalidData
  | invalidChecksum (sec : ChecksumSection) (provided calculated : Nat)
  deriving DecidableEq, Repr

/-- `impl From<io::Error> for BinHexError` (archive.rs line 297): every io
error is wrapped as `IoError(kind)`. -/
def binHexErrorOfIo (kind : IOErrorKind) : BinHexError := .ioError kind

/-! ## CRC16/XMODEM (the `crc16` crate's `State::<XMODEM>`)

Polynomial `0x1021`, initial value `0x0000`, MSB first, no reflection, no
final XOR: per input byte, `crc ^= byte << 8` followed by eight shift steps.
-/

/-- One shift step of the CRC register: shift left, xor the polynomial if the
top bit was set.  The register is kept in `[0, 2^16)`. -/
def crcStep (c : Nat) : Nat :=
  if c ≥ 32768 then ((2 * c) % 65536) ^^^ 0x1021 else (2 * c) % 65536

/-- Eight consecutive `crcStep`s (one input byte's worth). -/
def crcStep8 (c : Nat) : Nat :=
  crcStep (crcStep (crcStep (crcStep (crcStep (crcStep (crcStep (crcStep c)))))))

/-- Feed one byte into the CRC register. -/
def crcUpd (c b : Nat) : Nat := crcStep8 (c ^^^ (b * 256))

/-- Run the CRC over a byte list starting from register value `c`. -/
def crcRun (c : Nat) (l : List Nat) : Nat := l.foldl crcUpd c

/-- CRC16/XMODEM of a byte list (initial value 0). -/
def crc16 (l : List Nat) : Nat := crcRun 0 l

theorem crcRun_append (c : Nat) (l₁ l₂ : List Nat) :
    crcRun c (l₁ ++ l₂) = crcRun (crcRun c l₁) l₂ := by
  simp [crcRun, List.foldl_append]

theorem xor_lt_65536 {a b : Nat} (ha : a < 65536) (hb : b < 65536) :
    a ^^^ b < 65536 := by
  have h := Nat.bitwise_lt (f := bne) (n := 16) (by simpa using ha) (by simpa using hb)
  simpa [HXor.hXor, Xor.xor, Nat.xor] using h

theorem crcStep_lt (c : Nat) : crcStep c < 65536 := by
  unfold crcStep
  split
  · exact xor_lt_65536 (Nat.mod_lt _ (by norm_num)) (by norm_num)
  · exact Nat.mod_lt _ (by norm_num)

theorem crcStep_inj {c₁ c₂ : Nat} (h₁ : c₁ < 65536) (h₂ : c₂ < 65536)
    (h : crcStep c₁ = crcStep c₂) : c₁ = c₂ := by
  unfold crcStep at h
  by_cases k₁ : c₁ ≥ 32768 <;> by_cases k₂ : c₂ ≥ 32768 <;>
      simp only [k₁, k₂, if_pos, if_neg, if_true, if_false] at h
  · have := Nat.xor_left_inj.mp h
    omega
  · -- left side has the polynomial xored in (odd), right side is even
    exfalso
    have hmod : ((2 * c₁) % 65536 ^^^ 4129) % 2 = ((2 * c₁) % 65536 + 4129) % 2 :=
      Nat.xor_mod_two_eq
    have : ((2 * c₁) % 65536 ^^^ 4129) % 2 = 1 := by omega
    rw [h] at this
    omega
  · exfalso
    have hmod : ((2 * c₂) % 65536 ^^^ 4129) % 2 = ((2 * c₂) % 65536 + 4129) % 2 :=
      Nat.xor_mod_two_eq
    have : ((2 * c₂) % 65536 ^^^ 4129) % 2 = 1 := by omega
    rw [← h] at this
    omega
  · omega

theorem crcStep8_lt (c : Nat) : crcStep8 c < 65536 := crcStep_lt _

theorem crcStep8_inj {c₁ c₂ : Nat} (h₁ : c₁ < 65536) (h₂ : c₂ < 65536)
    (h : crcStep8 c₁ = crcStep8 c₂) : c₁ = c₂ := by
  unfold crcStep8 at h
  have l := crcStep_lt
  exact crcStep_inj h₁ h₂ (crcStep_inj (l _) (l _) (crcStep_inj (l _) (l _)
    (crcStep_inj (l _) (l _) (crcStep_inj (l _) (l _) (crcStep_inj (l _) (l _)
    (crcStep_inj (l _) (l _) (crcStep_inj (l _) (l _) h)))))))

theorem crcUpd_lt (c b : Nat) : crcUpd c b < 65536 := crcStep_lt _

theorem crcUpd_inj_state {c₁ c₂ b : Nat} (h₁ : c₁ < 65536) (h₂ : c₂ < 65536)
    (hb : b < 256) (h : crcUpd c₁ b = crcUpd c₂ b) : c₁ = c₂ := by
  have hb' : b * 256 < 65536 := by omega
  have e := crcStep8_inj (xor_lt_65536 h₁ hb') (xor_lt_65536 h₂ hb') h
  exact Nat.xor_left_inj.mp e

theorem crcUpd_inj_byte {c b₁ b₂ : Nat} (hc : c < 65536) (hb₁ : b₁ < 256)
    (hb₂ : b₂ < 256) (h : crcUpd c b₁ = crcUpd c b₂) : b₁ = b₂ := by
  have e := crcStep8_inj (xor_lt_65536 hc (by omega)) (xor_lt_65536 hc (by omega)) h
  have := Nat.xor_right_inj.mp e
  omega

theorem crcRun_cons (c b : Nat) (t : List Nat) :
    crcRun c (b :: t) = crcRun (crcUpd c b) t := by
  simp [crcRun]

theorem crcRun_nil (c : Nat) : crcRun c [] = c := rfl

theorem crcRun_lt (c : Nat) (l : List Nat) (hc : c < 65536) : crcRun c l < 65536 := by
  induction l generalizing c with
  | nil => exact hc
  | cons b t ih =>
    rw [crcRun_cons]
    exact ih _ (crcUpd_lt _ _)

theorem crcRun_inj_state {l : List Nat} (hl : ∀ b ∈ l, b < 256) :
    ∀ {c₁ c₂ : Nat}, c₁ < 65536 → c₂ < 65536 → crcRun c₁ l = crcRun c₂ l → c₁ = c₂ := by
  induction l with
  | nil => intro c₁ c₂ _ _ h; exact h
  | cons b t ih =>
    intro c₁ c₂ h₁ h₂ h
    rw [crcRun_cons, crcRun_cons] at h
    have hb : b < 256 := hl b (List.mem_cons_self ..)
    have ht : ∀ x ∈ t, x < 256 := fun x hx => hl x (List.mem_cons_of_mem _ hx)
    exact crcUpd_inj_state h₁ h₂ hb (ih ht (crcUpd_lt _ _) (crcUpd_lt _ _) h)

/-- Changing a single byte of the input always changes the CRC. -/
theorem crc16_set_ne (l : List Nat) (i : Nat) (b' : Nat) (hi : i < l.length)
    (hl : ∀ b ∈ l, b < 256) (hb' : b' < 256) (hne : b' ≠ l.get ⟨i, hi⟩) :
    crc16 (l.set i b') ≠ crc16 l := by
  intro h
  have hset : l.set i b' = l.take i ++ b' :: l.drop (i + 1) :=
    List.set_eq_take_cons_drop b' hi
  have horig : l = l.take i ++ l.get ⟨i, hi⟩ :: l.drop (i + 1) := by
    conv_lhs => rw [← List.take_append_drop i l]
    rw [List.drop_eq_getElem_cons hi]
    rfl
  rw [hset] at h
  conv_rhs at h => rw [horig]
  unfold crc16 at h
  rw [crcRun_append, crcRun_append, crcRun_cons, crcRun_cons] at h
  have hdrop : ∀ b ∈ l.drop (i + 1), b < 256 := fun b hb => hl b (List.mem_of_mem_drop hb)
  have hc : crcRun 0 (l.take i) < 65536 := crcRun_lt _ _ (by norm_num)
  have := crcRun_inj_state hdrop (crcUpd_lt _ _) (crcUpd_lt _ _) h
  exact hne (crcUpd_inj_byte hc hb' (hl _ (List.get_mem l i hi)) this)


/-! ## The run-length expander (`src/binhex/expand.rs`)

`BinHexExpander<R>` wraps its source in a `BufReader`; each iteration of the
`read` loop calls `fill_buf`, which returns some nonempty prefix of the
remaining source bytes (empty only at end of input).  The prefix length is
modelled by a schedule `sch : Nat → Nat` clipped to `[1, remaining]`; the
counter `i` advances at every `fill_buf` call, so quantifying over `sch`
covers every possible buffering behaviour.
-/

/-- `memchr::memchr`: index of the first occurrence of `needle`. -/
def memchr (needle : Nat) : List Nat → Option Nat
  | [] => none
  | b :: t => if b = needle then some 0 else (memchr needle t).map (· + 1)

theorem memchr_nil (needle : Nat) : memchr needle [] = none := rfl

theorem memchr_cons (needle b : Nat) (t : List Nat) :
    memchr needle (b :: t) =
      if b = needle then some 0 else (memchr needle t).map (· + 1) := rfl

theorem memchr_some_lt {needle : Nat} {l : List Nat} {i : Nat}
    (h : memchr needle l = some i) : i < l.length := by
  induction l generalizing i with
  | nil => simp [memchr] at h
  | cons b t ih =>
    rw [memchr_cons] at h
    split at h
    · cases h; simp
    · cases hm : memchr needle t with
      | none => rw [hm] at h; simp at h
      | some j =>
        rw [hm] at h
        simp only [Option.map_some'] at h
        cases h
        have := ih hm
        simp
        omega

theorem memchr_none_not_mem {needle : Nat} {l : List Nat}
    (h : memchr needle l = none) : needle ∉ l := by
  induction l with
  | nil => simp
  | cons b t ih =>
    rw [memchr_cons] at h
    split at h
    · simp at h
    · intro hmem
      rcases List.mem_cons.mp hmem with h1 | h2
      · simp_all
      · cases hm : memchr needle t with
        | none => exact ih hm h2
        | some j => rw [hm] at h; simp at h

theorem memchr_some_getD {needle : Nat} {l : List Nat} {i : Nat}
    (h : memchr needle l = some i) : l.getD i 0 = needle := by
  induction l generalizing i with
  | nil => simp [memchr] at h
  | cons b t ih =>
    rw [memchr_cons] at h
    split at h
    · cases h; simpa
    · cases hm : memchr needle t with
      | none => rw [hm] at h; simp at h
      | some j =>
        rw [hm] at h
        simp only [Option.map_some'] at h
        cases h
        simp only [List.getD_cons_succ]
        exact ih hm

theorem memchr_some_take_none {needle : Nat} {l : List Nat} {i : Nat}
    (h : memchr needle l = some i) : memchr needle (l.take i) = none := by
  induction l generalizing i with
  | nil => simp [memchr] at h
  | cons b t ih =>
    rw [memchr_cons] at h
    split at h
    · cases h; simp [memchr]
    · cases hm : memchr needle t with
      | none => rw [hm] at h; simp at h
      | some j =>
        rw [hm] at h
        simp only [Option.map_some'] at h
        cases h
        simpa [List.take_cons, memchr_cons, *] using ih hm

namespace Expand

/-- `State` from expand.rs. -/
inductive St where
  | scan : Option Nat → St
  | escape : Option Nat → St
  | expand : Nat → Nat → St
  | done
  deriving DecidableEq, Repr

/-- `Event` from expand.rs. -/
inductive Ev where
  | copiedBytes : Nat → Nat → Ev
  | foundEscape
  | foundRunLength : Nat → Ev
  | sourceEmpty
  deriving DecidableEq, Repr

/-- The result of a fallible operation, with the `panic!` in the catch-all
arm of `State::advance` (and the out-of-bounds slice accesses reachable from
a zero-capacity destination) modelled explicitly. -/
inductive Res (α : Type) where
  | ok : α → Res α
  | err : IOErrorKind → Res α
  | panicked : Res α
  deriving DecidableEq, Repr

/-- `Res.mapOk f` applies `f` under `ok` and is the identity otherwise. -/
def Res.mapOk (f : α → β) : Res α → Res β
  | .ok a => .ok (f a)
  | .err e => .err e
  | .panicked => .panicked

theorem Res.mapOk_ok (f : α → β) (a : α) : Res.mapOk f (.ok a) = .ok (f a) := rfl

theorem Res.mapOk_comp (f : β → γ) (g : α → β) (r : Res α) :
    Res.mapOk f (Res.mapOk g r) = Res.mapOk (fun a => f (g a)) r := by
  cases r <;> rfl

theorem Res.mapOk_id (r : Res α) : Res.mapOk (fun a => a) r = r := by
  cases r <;> rfl

/-- `State::advance` (expand.rs lines 134-161).  The pairs not listed in the
Rust `match` fall into its catch-all `panic!` arm; they are enumerated
explicitly here (every `.panicked` line below is that one catch-all arm). -/
def St.advance : St → Ev → Res St
  | .scan _, .copiedBytes _ lastByte => .ok (.scan (some lastByte))
  | .scan expandableByte, .foundEscape => .ok (.escape expandableByte)
  | .scan _, .sourceEmpty => .ok .done
  | .scan _, .foundRunLength _ => .panicked
  | .escape _, .copiedBytes _ lastByte => .ok (.scan (some lastByte))
  | .escape (some expandableByte), .foundRunLength runLength =>
      .ok (.expand expandableByte runLength)
  | .escape none, .foundRunLength _ => .panicked
  | .escape _, .sourceEmpty => .err .invalidData
  | .escape _, .foundEscape => .panicked
  | .expand byte runLength, .copiedBytes bytesCopied _ =>
      if bytesCopied < runLength then .ok (.expand byte (runLength - bytesCopied))
      else .ok (.scan none)
  | .expand _ _, .foundEscape => .panicked
  | .expand _ _, .foundRunLength _ => .panicked
  | .expand _ _, .sourceEmpty => .panicked
  | .done, _ => .panicked

/-- `fill_buf` on the `BufReader`: a nonempty prefix of the remaining source
(empty iff the source is exhausted), with the prefix length picked by the
schedule. -/
def fillBuf (sch : Nat → Nat) (i : Nat) (src : List Nat) : List Nat :=
  src.take (max 1 (min (sch i) src.length))

theorem fillBuf_eq_nil_iff (sch : Nat → Nat) (i : Nat) (src : List Nat) :
    fillBuf sch i src = [] ↔ src = [] := by
  cases src <;> simp [fillBuf]

theorem fillBuf_eq_take (sch : Nat → Nat) (i : Nat) (src : List Nat) :
    ∃ n, 1 ≤ n ∧ fillBuf sch i src = src.take n := by
  exact ⟨max 1 (min (sch i) src.length), le_max_left _ _, rfl⟩

/-- Secondary components of the termination measure for the `read` loop. -/
def St.rank : St → Nat
  | .done => 0
  | .scan _ => 1
  | .expand _ _ => 2
  | .escape _ => 3

end Expand

namespace Expand

/-- One iteration of the `read` loop (expand.rs lines 29-105): from the
current state and `fill_buf` result, the bytes now in the destination, the
remaining source, and the produced `Event`.  The two `.panicked` leaves
model the slice-index panics that the real code hits when the destination
has no remaining capacity (they are unreachable from `read`'s entry point
with a nonempty destination). -/
def readStep (st : St) (buf : List Nat) (cap : Nat) (acc src : List Nat) :
    Res (List Nat × List Nat × Ev) :=
  match st with
  | .scan _ =>
    if buf.isEmpty then .ok (acc, src, .sourceEmpty)
    else
      match memchr 144 (buf.take (min buf.length (cap - acc.length))) with
      | some 0 => .ok (acc, src.drop 1, .foundEscape)
      | some (pos + 1) =>
          .ok (acc ++ buf.take (pos + 1), src.drop (pos + 1),
               .copiedBytes (pos + 1) (buf.getD pos 0))
      | none =>
          if min buf.length (cap - acc.length) = 0 then .panicked
          else .ok (acc ++ buf.take (min buf.length (cap - acc.length)),
                    src.drop (min buf.length (cap - acc.length)),
                    .copiedBytes (min buf.length (cap - acc.length))
                      (buf.getD (min buf.length (cap - acc.length) - 1) 0))
  | .escape _ =>
    if buf.isEmpty then .ok (acc, src, .sourceEmpty)
    else if buf.headD 0 = 0 then
      if cap ≤ acc.length then .panicked
      else .ok (acc ++ [144], src.drop 1, .copiedBytes 1 144)
    else .ok (acc, src.drop 1, .foundRunLength (buf.headD 0 - 1))
  | .expand byte runLength =>
      .ok (acc ++ List.replicate (min runLength (cap - acc.length)) byte, src,
           .copiedBytes (min runLength (cap - acc.length)) byte)
  | .done => .ok (acc, src, .sourceEmpty)

/-- Termination: whenever the loop continues (state advanced without error,
destination not yet full), the measure strictly decreases. -/
theorem readStep_advance_dec {st : St} {buf : List Nat} {cap : Nat}
    {acc src acc' src' : List Nat} {ev : Ev} {st' : St}
    (hlen : buf.length ≤ src.length) (hnil : buf = [] ↔ src = [])
    (hs : readStep st buf cap acc src = .ok (acc', src', ev))
    (ha : st.advance ev = .ok st') (hguard : ¬ cap ≤ acc'.length) :
    src'.length * 8 + (cap - acc'.length) * 4 + st'.rank
      < src.length * 8 + (cap - acc.length) * 4 + st.rank := by
  cases st with
  | scan l =>
    rw [readStep] at hs
    split at hs
    · -- buf empty: SourceEmpty, state goes to done
      cases hs
      rename_i hempty
      rw [List.isEmpty_iff] at hempty
      have hsrc : src = [] := hnil.mp hempty
      rw [St.advance] at ha
      cases ha
      simp [St.rank, hsrc]
    · rename_i hemp
      rw [List.isEmpty_iff] at hemp
      have hsrc : src ≠ [] := fun h => hemp (hnil.mpr h)
      have hsrc1 : 1 ≤ src.length := by
        cases src
        · simp at hsrc
        · simp
      split at hs
      · -- some 0: FoundEscape
        cases hs
        rw [St.advance] at ha
        cases ha
        simp only [St.rank, List.length_drop]
        omega
      · -- some (pos + 1)
        rename_i pos hm
        cases hs
        rw [St.advance] at ha
        cases ha
        have hlt := memchr_some_lt hm
        simp only [List.length_take] at hlt
        simp only [St.rank, List.length_drop, List.length_append, List.length_take]
        omega
      · -- none: copy `capacity` bytes
        rename_i hm
        split at hs
        · cases hs
        · rename_i hcap0
          cases hs
          rw [St.advance] at ha
          cases ha
          simp only [St.rank, List.length_drop, List.length_append, List.length_take]
          omega
  | escape l =>
    rw [readStep] at hs
    split at hs
    · cases hs
      rw [St.advance] at ha
      cases ha
    · rename_i hemp
      rw [List.isEmpty_iff] at hemp
      have hsrc : src ≠ [] := fun h => hemp (hnil.mpr h)
      have hsrc1 : 1 ≤ src.length := by
        cases src
        · simp at hsrc
        · simp
      split at hs
      · split at hs
        · cases hs
        · cases hs
          rw [St.advance] at ha
          cases ha
          simp only [St.rank, List.length_drop, List.length_append]
          omega
      · cases hs
        cases l with
        | none => rw [St.advance] at ha; cases ha
        | some x =>
          rw [St.advance] at ha
          cases ha
          simp only [St.rank, List.length_drop]
          omega
  | expand byte runLength =>
    rw [readStep] at hs
    cases hs
    rw [St.advance] at ha
    split at ha
    · -- capacity < runLength: destination necessarily filled, contradiction
      cases ha
      rename_i hlt
      simp only [List.length_append, List.length_replicate] at hguard
      omega
    · cases ha
      rename_i hge
      simp only [List.length_append, List.length_replicate] at hguard ⊢
      simp only [St.rank]
      omega
  | done =>
    rw [readStep] at hs
    cases hs
    rw [St.advance] at ha
    cases ha

end Expand

namespace Expand

/-- `<BinHexExpander as Read>::read` (expand.rs lines 23-113).  `cap` is
`dest.len()` and `acc` the destination prefix already filled
(`bytes_copied = acc.length`); the result carries the filled destination
prefix, the state, the remaining source bytes, and the next `fill_buf`
counter.  The early-return test after `advance` is `bytes_copied ==
dest.len()` in Rust; it is written `cap ≤ acc'.length` here, which agrees
with it because `bytes_copied` can never exceed `dest.len()`. -/
def read (sch : Nat → Nat) (i : Nat) (st : St) (src : List Nat) (cap : Nat)
    (acc : List Nat) : Res (List Nat × St × List Nat × Nat) :=
  if st = .done then .ok (acc, .done, src, i)
  else
    match hs : readStep st (fillBuf sch i src) cap acc src with
    | .err e => .err e
    | .panicked => .panicked
    | .ok (acc', src', ev) =>
      match ha : st.advance ev with
      | .err e => .err e
      | .panicked => .panicked
      | .ok st' =>
        if cap ≤ acc'.length then .ok (acc', st', src', i + 1)
        else read sch (i + 1) st' src' cap acc'
termination_by src.length * 8 + (cap - acc.length) * 4 + st.rank
decreasing_by
  exact readStep_advance_dec
    (by obtain ⟨n, -, he⟩ := fillBuf_eq_take sch i src; rw [he]; simp)
    (fillBuf_eq_nil_iff sch i src) hs ha (by assumption)

end Expand

namespace Expand

/-- The pure meaning of an expander configuration: the byte stream it will
deliver from state `st` with remaining compressed source `src` (an error or
panic absorbs any bytes delivered before it, as it does for a caller that
aborts on the first `Err`). -/
def denote : St → List Nat → Res (List Nat)
  | .done, _ => .ok []
  | .scan _, [] => .ok []
  | .scan l, b :: rest =>
      if b = 144 then denote (.escape l) rest
      else Res.mapOk (fun out => b :: out) (denote (.scan (some b)) rest)
  | .escape _, [] => .err .invalidData
  | .escape l, b :: rest =>
      if b = 0 then Res.mapOk (fun out => 144 :: out) (denote (.scan (some 144)) rest)
      else
        match l with
        | none => .panicked
        | some x => denote (.expand x (b - 1)) rest
  | .expand byte runLength, src =>
      Res.mapOk (fun out => List.replicate runLength byte ++ out) (denote (.scan none) src)
termination_by st src => src.length * 4 + st.rank
decreasing_by
  all_goals simp [St.rank]
  all_goals omega

theorem denote_done (src : List Nat) : denote .done src = .ok [] := by
  rw [denote]

theorem denote_scan_nil (l : Option Nat) : denote (.scan l) [] = .ok [] := by
  rw [denote]

theorem denote_scan_cons (l : Option Nat) (b : Nat) (rest : List Nat) :
    denote (.scan l) (b :: rest) =
      if b = 144 then denote (.escape l) rest
      else Res.mapOk (fun out => b :: out) (denote (.scan (some b)) rest) := by
  rw [denote]

theorem denote_escape_nil (l : Option Nat) : denote (.escape l) [] = .err .invalidData := by
  rw [denote]

theorem denote_escape_cons_none (b : Nat) (rest : List Nat) :
    denote (.escape none) (b :: rest) =
      if b = 0 then Res.mapOk (fun out => 144 :: out) (denote (.scan (some 144)) rest)
      else .panicked := by
  conv_lhs => rw [denote]

theorem denote_escape_cons_some (x b : Nat) (rest : List Nat) :
    denote (.escape (some x)) (b :: rest) =
      if b = 0 then Res.mapOk (fun out => 144 :: out) (denote (.scan (some 144)) rest)
      else denote (.expand x (b - 1)) rest := by
  conv_lhs => rw [denote]

theorem denote_expand (byte runLength : Nat) (src : List Nat) :
    denote (.expand byte runLength) src =
      Res.mapOk (fun out => List.replicate runLength byte ++ out)
        (denote (.scan none) src) := by
  cases src with
  | nil => conv_lhs => rw [denote]
  | cons b rest => conv_lhs => rw [denote]

end Expand

namespace Expand

theorem Res.mapOk_nil_append (r : Res (List Nat)) :
    Res.mapOk (fun o => [] ++ o) r = r := by
  cases r <;> rfl

theorem Res.mapOk_congr {f g : α → β} (r : Res α) (h : ∀ a, f a = g a) :
    Res.mapOk f r = Res.mapOk g r := by
  cases r <;> simp [Res.mapOk, h]

/-- Copying an escape-free nonempty chunk from the head of the source: the
scan state emits it verbatim and remembers its last byte. -/
theorem denote_scan_chunk (c : List Nat) (l : Option Nat) (rest : List Nat)
    (hne : c ≠ []) (hc : memchr 144 c = none) :
    denote (.scan l) (c ++ rest) =
      Res.mapOk (fun out => c ++ out)
        (denote (.scan (some (c.getD (c.length - 1) 0))) rest) := by
  induction c generalizing l with
  | nil => simp at hne
  | cons b t ih =>
    have hb : b ≠ 144 := by
      rw [memchr_cons] at hc
      by_contra h
      simp [h] at hc
    have ht : memchr 144 t = none := by
      rw [memchr_cons] at hc
      split at hc
      · simp at hc
      · cases hmt : memchr 144 t with
        | none => rfl
        | some j => rw [hmt] at hc; simp at hc
    cases t with
    | nil =>
      simp only [List.cons_append, List.nil_append]
      rw [denote_scan_cons]
      simp only [hb, if_neg, if_false, reduceIte]
      rfl
    | cons b2 t2 =>
      rw [List.cons_append, denote_scan_cons]
      simp only [hb, reduceIte]
      rw [ih (some b) (by simp) ht]
      rw [Res.mapOk_comp]
      have hgd : (b :: b2 :: t2).getD ((b :: b2 :: t2).length - 1) 0 =
          (b2 :: t2).getD ((b2 :: t2).length - 1) 0 := by
        have h1 : (b :: b2 :: t2).length - 1 = ((b2 :: t2).length - 1) + 1 := by
          simp
        rw [h1, List.getD_cons_succ]
      rw [hgd]
      exact Res.mapOk_congr _ (fun a => by simp)

end Expand

theorem getD_take_lt (l : List Nat) (k j d : Nat) (h : j < k) :
    (l.take k).getD j d = l.getD j d := by
  rw [List.getD_eq_getElem?_getD, List.getD_eq_getElem?_getD, List.getElem?_take]
  simp [h]

theorem cons_getD_drop (l : List Nat) (h : l ≠ []) : l = l.getD 0 0 :: l.drop 1 := by
  cases l with
  | nil => simp at h
  | cons b t => simp

namespace Expand

theorem fillBuf_headD (sch : Nat → Nat) (i : Nat) (src : List Nat) (d : Nat)
    (h : src ≠ []) : (fillBuf sch i src).headD d = src.headD d := by
  cases src with
  | nil => simp at h
  | cons b t =>
    unfold fillBuf
    obtain ⟨k, hk⟩ : ∃ k, max 1 (min (sch i) (b :: t).length) = k + 1 :=
      ⟨max 1 (min (sch i) (b :: t).length) - 1, by omega⟩
    rw [hk, List.take_succ_cons]
    simp

theorem headD_eq_getD (l : List Nat) (d : Nat) : l.headD d = l.getD 0 d := by
  cases l <;> simp

/-- Secondary measure for the outer read-to-end loop. -/
def St.ws : St → Nat
  | .done => 0
  | .scan _ => 5
  | .expand _ runLength => runLength * 4 + 6
  | .escape _ => 7

/-- `readStep` never produces an io error itself (errors only arise from
`advance`). -/
theorem readStep_ne_err {st : St} {buf : List Nat} {cap : Nat} {acc src : List Nat}
    {e : IOErrorKind} : readStep st buf cap acc src ≠ .err e := by
  intro h
  cases st with
  | scan l =>
    rw [readStep] at h
    split at h
    · simp at h
    · split at h
      · simp at h
      · simp at h
      · split at h <;> simp at h
  | escape l =>
    rw [readStep] at h
    split at h
    · simp at h
    · split at h
      · split at h <;> simp at h
      · simp at h
  | expand byte runLength => rw [readStep] at h; simp at h
  | done => rw [readStep] at h; simp at h

/-- Under the loop invariant `bytes_copied < dest.len()`, the explicit panic
leaves inside `readStep` are unreachable. -/
theorem readStep_ne_panicked {sch : Nat → Nat} {i : Nat} {st : St} {cap : Nat}
    {acc src : List Nat} (hacc : acc.length < cap) :
    readStep st (fillBuf sch i src) cap acc src ≠ .panicked := by
  intro h
  cases st with
  | scan l =>
    rw [readStep] at h
    split at h
    · simp at h
    · rename_i hemp
      split at h
      · simp at h
      · simp at h
      · split at h
        · rename_i hcap0
          have hbl : fillBuf sch i src ≠ [] := by
            intro hx
            rw [hx] at hemp
            simp at hemp
          have : 0 < (fillBuf sch i src).length := List.length_pos.mpr hbl
          omega
        · simp at h
  | escape l =>
    rw [readStep] at h
    split at h
    · simp at h
    · split at h
      · split at h
        · omega
        · simp at h
      · simp at h
  | expand byte runLength => rw [readStep] at h; simp at h
  | done => rw [readStep] at h; simp at h

/-- If `advance` rejects the produced event with an io error, the
denotation errs identically (stream end inside an escape). -/
theorem step_advance_err {sch : Nat → Nat} {i : Nat} {st : St} {cap : Nat}
    {acc src acc' src' : List Nat} {ev : Ev} {e : IOErrorKind}
    (hs : readStep st (fillBuf sch i src) cap acc src = .ok (acc', src', ev))
    (ha : st.advance ev = .err e) : denote st src = .err e := by
  cases st with
  | scan l =>
    rw [readStep] at hs
    split at hs
    · cases hs; rw [St.advance] at ha; simp at ha
    · split at hs
      · cases hs; rw [St.advance] at ha; simp at ha
      · cases hs; rw [St.advance] at ha; simp at ha
      · split at hs
        · simp at hs
        · cases hs; rw [St.advance] at ha; simp at ha
  | escape l =>
    rw [readStep] at hs
    split at hs
    · -- source exhausted right after the escape byte
      cases hs
      rename_i hemp
      rw [List.isEmpty_iff, fillBuf_eq_nil_iff] at hemp
      rw [St.advance] at ha
      cases ha
      rw [hemp, denote_escape_nil]
    · split at hs
      · split at hs
        · simp at hs
        · cases hs; rw [St.advance] at ha; simp at ha
      · cases hs
        cases l with
        | none => rw [St.advance] at ha; simp at ha
        | some x => rw [St.advance] at ha; simp at ha
  | expand byte runLength =>
    rw [readStep] at hs
    cases hs
    rw [St.advance] at ha
    split at ha <;> simp at ha
  | done => rw [readStep] at hs; cases hs; rw [St.advance] at ha; simp at ha

/-- If `advance` panics on the produced event, the denotation panics: the
only reachable case is a run length arriving in `Escape(None)`. -/
theorem step_advance_panicked {sch : Nat → Nat} {i : Nat} {st : St} {cap : Nat}
    {acc src acc' src' : List Nat} {ev : Ev}
    (hnd : st ≠ .done)
    (hs : readStep st (fillBuf sch i src) cap acc src = .ok (acc', src', ev))
    (ha : st.advance ev = .panicked) : denote st src = .panicked := by
  cases st with
  | scan l =>
    rw [readStep] at hs
    split at hs
    · cases hs; rw [St.advance] at ha; simp at ha
    · split at hs
      · cases hs; rw [St.advance] at ha; simp at ha
      · cases hs; rw [St.advance] at ha; simp at ha
      · split at hs
        · simp at hs
        · cases hs; rw [St.advance] at ha; simp at ha
  | escape l =>
    rw [readStep] at hs
    split at hs
    · cases hs; rw [St.advance] at ha; simp at ha
    · rename_i hemp
      rw [List.isEmpty_iff] at hemp
      have hsrc : src ≠ [] := fun hx => hemp ((fillBuf_eq_nil_iff sch i src).mpr hx)
      split at hs
      · split at hs
        · simp at hs
        · cases hs; rw [St.advance] at ha; simp at ha
      · rename_i hhead
        cases hs
        cases l with
        | some x => rw [St.advance] at ha; simp at ha
        | none =>
          -- Escape(None) receives FoundRunLength: the catch-all panic
          rw [St.advance] at ha
          have hd : (fillBuf sch i src).headD 0 = src.getD 0 0 := by
            rw [fillBuf_headD sch i src 0 hsrc, headD_eq_getD]
          rw [hd] at hhead
          conv_lhs => rw [cons_getD_drop src hsrc]
          rw [denote_escape_cons_none]
          rw [if_neg hhead]
  | expand byte runLength =>
    rw [readStep] at hs
    cases hs
    rw [St.advance] at ha
    split at ha <;> simp at ha
  | done => exact absurd rfl hnd

end Expand

namespace Expand

/-- One successful loop iteration: the bytes appended to the destination
are exactly a prefix of the denotation, the invariant `bytes_copied ≤
dest.len()` is maintained, and the configuration makes progress. -/
theorem step_ok {sch : Nat → Nat} {i : Nat} {st : St} {cap : Nat}
    {acc src acc' src' : List Nat} {ev : Ev} {st' : St}
    (hacc : acc.length < cap) (hnd : st ≠ .done)
    (hs : readStep st (fillBuf sch i src) cap acc src = .ok (acc', src', ev))
    (ha : st.advance ev = .ok st') :
    denote st src =
        Res.mapOk (fun o => acc'.drop acc.length ++ o) (denote st' src') ∧
    (∃ δ, acc' = acc ++ δ) ∧ acc'.length ≤ cap ∧
    (src'.length < src.length ∨ (src' = src ∧ st'.ws < st.ws)) := by
  have hn1 : 1 ≤ max 1 (min (sch i) src.length) := le_max_left _ _
  have hfb : fillBuf sch i src = src.take (max 1 (min (sch i) src.length)) := rfl
  cases st with
  | scan l =>
    rw [readStep] at hs
    split at hs
    · -- source exhausted: Scan -> Done
      cases hs
      rename_i hemp
      rw [List.isEmpty_iff, fillBuf_eq_nil_iff] at hemp
      rw [St.advance] at ha
      cases ha
      subst hemp
      refine ⟨?_, ⟨[], by simp⟩, by omega, Or.inr ⟨rfl, by simp [St.ws]⟩⟩
      rw [denote_scan_nil, denote_done, Res.mapOk_ok]
      simp
    · rename_i hemp
      rw [List.isEmpty_iff] at hemp
      have hsrc : src ≠ [] := fun hx => hemp ((fillBuf_eq_nil_iff sch i src).mpr hx)
      have hsrc1 : 1 ≤ src.length := List.length_pos.mpr hsrc
      have hbl : (fillBuf sch i src).length = min (max 1 (min (sch i) src.length)) src.length := by
        rw [hfb, List.length_take]
      have hbl1 : 1 ≤ (fillBuf sch i src).length := by omega
      split at hs
      · -- escape byte at the head of the buffer: Scan -> Escape
        rename_i hm
        cases hs
        rw [St.advance] at ha
        cases ha
        have hklt := memchr_some_lt hm
        have hget := memchr_some_getD hm
        rw [List.length_take] at hklt
        have hhd : src.getD 0 0 = 144 := by
          rw [← getD_take_lt src (max 1 (min (sch i) src.length)) 0 0 (by omega), ← hfb]
          rw [← getD_take_lt (fillBuf sch i src)
            (min (fillBuf sch i src).length (cap - acc.length)) 0 0 (by omega)]
          exact hget
        refine ⟨?_, ⟨[], by simp⟩, by omega,
          Or.inl (by rw [List.length_drop]; omega)⟩
        conv_lhs => rw [cons_getD_drop src hsrc]
        rw [hhd, denote_scan_cons, if_pos rfl]
        rw [List.drop_length]
        rw [Res.mapOk_nil_append]
      · -- copy up to (but not including) the escape byte
        rename_i pos hm
        cases hs
        rw [St.advance] at ha
        cases ha
        have hklt := memchr_some_lt hm
        rw [List.length_take, hbl] at hklt
        have hle : pos + 1 ≤ (fillBuf sch i src).length := by rw [hbl]; omega
        have hlesrc : pos + 1 ≤ src.length := by omega
        have hchunk : (fillBuf sch i src).take (pos + 1) = src.take (pos + 1) := by
          rw [hfb, List.take_take]
          congr 1
          omega
        have hnone : memchr 144 (src.take (pos + 1)) = none := by
          have h0 := memchr_some_take_none hm
          rw [List.take_take] at h0
          have : min (pos + 1) (min (fillBuf sch i src).length (cap - acc.length)) = pos + 1 := by
            rw [hbl]; omega
          rw [this, hchunk] at h0
          exact h0
        have hclen : (src.take (pos + 1)).length = pos + 1 := by
          rw [List.length_take]; omega
        have hcne : src.take (pos + 1) ≠ [] := by
          intro hx
          rw [hx] at hclen
          simp at hclen
        have hlb : (fillBuf sch i src).getD pos 0 =
            (src.take (pos + 1)).getD ((src.take (pos + 1)).length - 1) 0 := by
          rw [hclen]
          simp only [Nat.add_sub_cancel]
          rw [getD_take_lt src (pos + 1) pos 0 (by omega)]
          rw [hfb, getD_take_lt src _ pos 0 (by omega)]
        refine ⟨?_, ⟨(fillBuf sch i src).take (pos + 1), rfl⟩, ?_,
          Or.inl (by rw [List.length_drop]; omega)⟩
        · conv_lhs => rw [← List.take_append_drop (pos + 1) src]
          rw [denote_scan_chunk _ l _ hcne hnone]
          rw [List.drop_left]
          rw [hchunk, ← hlb]
        · rw [List.length_append, hchunk, hclen]
          have : pos + 1 ≤ cap - acc.length := by omega
          omega
      · -- no escape byte in the examined window: copy the whole window
        rename_i hm
        split at hs
        · simp at hs
        · rename_i hk0
          cases hs
          rw [St.advance] at ha
          cases ha
          have hdle : (fillBuf sch i src).length ≤ src.length := by rw [hbl]; omega
          have hdle2 : (fillBuf sch i src).length ≤ max 1 (min (sch i) src.length) := by
            rw [hbl]; omega
          have hksrc : min (fillBuf sch i src).length (cap - acc.length) ≤ src.length := by
            omega
          have hchunk : (fillBuf sch i src).take
                (min (fillBuf sch i src).length (cap - acc.length)) =
              src.take (min (fillBuf sch i src).length (cap - acc.length)) := by
            rw [hfb, List.take_take]
            have ht : (src.take (max 1 (min (sch i) src.length))).length =
                min (max 1 (min (sch i) src.length)) src.length := by
              rw [List.length_take]
            congr 1
            omega
          have hnone : memchr 144
              (src.take (min (fillBuf sch i src).length (cap - acc.length))) = none := by
            rw [← hchunk]; exact hm
          have hclen : (src.take (min (fillBuf sch i src).length (cap - acc.length))).length
              = min (fillBuf sch i src).length (cap - acc.length) := by
            rw [List.length_take]; omega
          have hcne : src.take (min (fillBuf sch i src).length (cap - acc.length)) ≠ [] := by
            intro hx
            rw [hx] at hclen
            simp at hclen
            omega
          have ht2 : (src.take (max 1 (min (sch i) src.length))).length =
              min (max 1 (min (sch i) src.length)) src.length := by
            rw [List.length_take]
          have hlb : (fillBuf sch i src).getD
                (min (fillBuf sch i src).length (cap - acc.length) - 1) 0 =
              (src.take (min (fillBuf sch i src).length (cap - acc.length))).getD
                ((src.take (min (fillBuf sch i src).length (cap - acc.length))).length - 1)
                0 := by
            rw [hclen]
            rw [getD_take_lt src _ _ 0 (by omega)]
            rw [hfb, getD_take_lt src _ _ 0 (by omega)]
          refine ⟨?_, ⟨_, rfl⟩, ?_, Or.inl (by rw [List.length_drop]; omega)⟩
          · conv_lhs => rw [← List.take_append_drop
              (min (fillBuf sch i src).length (cap - acc.length)) src]
            rw [denote_scan_chunk _ l _ hcne hnone]
            rw [List.drop_left]
            rw [hchunk, ← hlb]
          · rw [List.length_append, hchunk, hclen]
            omega
  | escape l =>
    rw [readStep] at hs
    split at hs
    · cases hs
      rw [St.advance] at ha
      simp at ha
    · rename_i hemp
      rw [List.isEmpty_iff] at hemp
      have hsrc : src ≠ [] := fun hx => hemp ((fillBuf_eq_nil_iff sch i src).mpr hx)
      have hsrc1 : 1 ≤ src.length := List.length_pos.mpr hsrc
      have hd : (fillBuf sch i src).headD 0 = src.getD 0 0 := by
        rw [fillBuf_headD sch i src 0 hsrc, headD_eq_getD]
      split at hs
      · -- cancelled escape: emit a literal 0x90
        rename_i hzero
        split at hs
        · simp at hs
        · cases hs
          rw [St.advance] at ha
          cases ha
          rw [hd] at hzero
          refine ⟨?_, ⟨[144], rfl⟩, by simp; omega,
            Or.inl (by rw [List.length_drop]; omega)⟩
          conv_lhs => rw [cons_getD_drop src hsrc]
          have hmid : denote (.escape l) (src.getD 0 0 :: src.drop 1) =
              Res.mapOk (fun out => 144 :: out)
                (denote (.scan (some 144)) (src.drop 1)) := by
            cases l with
            | none => rw [denote_escape_cons_none, if_pos hzero]
            | some x => rw [denote_escape_cons_some, if_pos hzero]
          rw [hmid, List.drop_left]
          exact Res.mapOk_congr _ (fun a => by simp)
      · -- run length byte: Escape(Some _) -> Expand
        rename_i hhead
        cases hs
        cases l with
        | none => rw [St.advance] at ha; simp at ha
        | some x =>
          rw [St.advance] at ha
          cases ha
          rw [hd] at hhead
          refine ⟨?_, ⟨[], by simp⟩, by omega,
            Or.inl (by rw [List.length_drop]; omega)⟩
          conv_lhs => rw [cons_getD_drop src hsrc]
          rw [denote_escape_cons_some, if_neg hhead, hd]
          rw [List.drop_length, Res.mapOk_nil_append]
  | expand byte runLength =>
    rw [readStep] at hs
    cases hs
    rw [St.advance] at ha
    split at ha
    · -- destination filled before the run is exhausted
      rename_i hlt
      cases ha
      have hkeq : min runLength (cap - acc.length) = cap - acc.length := by omega
      refine ⟨?_, ⟨_, rfl⟩, by simp; omega, Or.inr ⟨rfl, ?_⟩⟩
      · rw [denote_expand, denote_expand, Res.mapOk_comp, List.drop_left]
        refine Res.mapOk_congr _ (fun a => ?_)
        rw [← List.append_assoc, ← List.replicate_add]
        congr 2
        omega
      · simp only [St.ws]
        omega
    · -- the whole (remaining) run fits: Expand -> Scan(None)
      rename_i hge
      cases ha
      have hkeq : min runLength (cap - acc.length) = runLength := by omega
      refine ⟨?_, ⟨_, rfl⟩, by simp; omega, Or.inr ⟨rfl, ?_⟩⟩
      · rw [denote_expand, List.drop_left, hkeq]
      · simp only [St.ws]
        omega
  | done => exact absurd rfl hnd

end Expand

namespace Expand

theorem read_eq_err {sch : Nat → Nat} {i : Nat} {st : St} {src : List Nat} {cap : Nat}
    {acc acc' src' : List Nat} {ev : Ev} {e : IOErrorKind} (hne : st ≠ .done)
    (hs : readStep st (fillBuf sch i src) cap acc src = .ok (acc', src', ev))
    (ha : st.advance ev = .err e) : read sch i st src cap acc = .err e := by
  rw [read, if_neg hne]
  split
  · rename_i e' h
    rw [hs] at h
    cases h
  · rename_i h
    rw [hs] at h
    cases h
  · rename_i a' s' v h
    rw [hs] at h
    cases h
    split
    · rename_i e' h2
      rw [ha] at h2
      cases h2
      rfl
    · rename_i h2
      rw [ha] at h2
      cases h2
    · rename_i st' h2
      rw [ha] at h2
      cases h2

theorem read_eq_panicked {sch : Nat → Nat} {i : Nat} {st : St} {src : List Nat} {cap : Nat}
    {acc acc' src' : List Nat} {ev : Ev} (hne : st ≠ .done)
    (hs : readStep st (fillBuf sch i src) cap acc src = .ok (acc', src', ev))
    (ha : st.advance ev = .panicked) : read sch i st src cap acc = .panicked := by
  rw [read, if_neg hne]
  split
  · rename_i e' h
    rw [hs] at h
    cases h
  · rename_i h
    rw [hs] at h
  · rename_i a' s' v h
    rw [hs] at h
    cases h
    split
    · rename_i e' h2
      rw [ha] at h2
      cases h2
    · rfl
    · rename_i st' h2
      rw [ha] at h2
      cases h2

theorem read_eq_ok {sch : Nat → Nat} {i : Nat} {st : St} {src : List Nat} {cap : Nat}
    {acc acc' src' : List Nat} {ev : Ev} {st' : St} (hne : st ≠ .done)
    (hs : readStep st (fillBuf sch i src) cap acc src = .ok (acc', src', ev))
    (ha : st.advance ev = .ok st') :
    read sch i st src cap acc =
      if cap ≤ acc'.length then .ok (acc', st', src', i + 1)
      else read sch (i + 1) st' src' cap acc' := by
  rw [read, if_neg hne]
  split
  · rename_i e' h
    rw [hs] at h
    cases h
  · rename_i h
    rw [hs] at h
    cases h
  · rename_i a' s' v h
    rw [hs] at h
    cases h
    split
    · rename_i e' h2
      rw [ha] at h2
      cases h2
    · rename_i h2
      rw [ha] at h2
      cases h2
    · rename_i st'' h2
      rw [ha] at h2
      cases h2
      rfl

theorem read_spec (sch : Nat → Nat) (i : Nat) (st : St) (src : List Nat) (cap : Nat)
    (acc : List Nat) : acc.length < cap →
    (∀ e, read sch i st src cap acc = .err e → denote st src = .err e) ∧
    (read sch i st src cap acc = .panicked → denote st src = .panicked) ∧
    (∀ out st' src' i', read sch i st src cap acc = .ok (out, st', src', i') →
      ∃ δ, out = acc ++ δ ∧ out.length ≤ cap ∧
        denote st src = Res.mapOk (fun o => δ ++ o) (denote st' src') ∧
        (cap ≤ out.length ∨ st' = .done) ∧
        ((st = .done ∧ out = acc ∧ st' = .done ∧ src' = src) ∨
         src'.length < src.length ∨ (src' = src ∧ st'.ws < st.ws))) := by
  induction i, st, src, cap, acc using read.induct sch with
  | case1 i src cap acc =>
    intro hacc
    have hread : read sch i .done src cap acc = .ok (acc, .done, src, i) := by
      rw [read]
      simp
    refine ⟨?_, ?_, ?_⟩
    · intro e h
      rw [hread] at h
      simp at h
    · intro h
      rw [hread] at h
      simp at h
    · intro out st' src' i' h
      rw [hread] at h
      cases h
      refine ⟨[], by simp, by omega, ?_, Or.inr rfl, Or.inl ⟨rfl, rfl, rfl, rfl⟩⟩
      rw [denote_done]
      rfl
  | case2 i st src cap acc hne e hs =>
    intro hacc
    exact absurd hs readStep_ne_err
  | case3 i st src cap acc hne hs =>
    intro hacc
    exact absurd hs (readStep_ne_panicked hacc)
  | case4 i st src cap acc hne acc' src' ev hs e ha =>
    intro hacc
    have hread : read sch i st src cap acc = .err e := read_eq_err hne hs ha
    refine ⟨?_, ?_, ?_⟩
    · intro e' h
      rw [hread] at h
      cases h
      exact step_advance_err hs ha
    · intro h
      rw [hread] at h
      simp at h
    · intro out st' src' i' h
      rw [hread] at h
      simp at h
  | case5 i st src cap acc hne acc' src' ev hs ha =>
    intro hacc
    have hread : read sch i st src cap acc = .panicked := read_eq_panicked hne hs ha
    refine ⟨?_, ?_, ?_⟩
    · intro e' h
      rw [hread] at h
      simp at h
    · intro h
      exact step_advance_panicked hne hs ha
    · intro out st' src' i' h
      rw [hread] at h
      simp at h
  | case6 i st src cap acc hne acc' src' ev hs st' ha hguard =>
    intro hacc
    have hread : read sch i st src cap acc = .ok (acc', st', src', i + 1) := by
      rw [read_eq_ok hne hs ha, if_pos hguard]
    obtain ⟨hden, ⟨δ₀, hδ₀⟩, hlen, hprog⟩ := step_ok hacc hne hs ha
    refine ⟨?_, ?_, ?_⟩
    · intro e' h
      rw [hread] at h
      simp at h
    · intro h
      rw [hread] at h
      simp at h
    · intro out st'' src'' i'' h
      rw [hread] at h
      cases h
      refine ⟨δ₀, hδ₀, hlen, ?_, Or.inl hguard, ?_⟩
      · rw [hden]
        subst hδ₀
        rw [List.drop_left]
      · rcases hprog with h1 | ⟨h2, h3⟩
        · exact Or.inr (Or.inl h1)
        · exact Or.inr (Or.inr ⟨h2, h3⟩)
  | case7 i st src cap acc hne acc' src' ev hs st' ha hguard ih =>
    intro hacc
    have hacc' : acc'.length < cap := by omega
    have hread : read sch i st src cap acc = read sch (i + 1) st' src' cap acc' := by
      rw [read_eq_ok hne hs ha, if_neg hguard]
    obtain ⟨hden, ⟨δ₀, hδ₀⟩, hlen, hprog⟩ := step_ok hacc hne hs ha
    obtain ⟨iherr, ihpan, ihok⟩ := ih hacc'
    have hδdrop : acc'.drop acc.length = δ₀ := by
      subst hδ₀
      rw [List.drop_left]
    rw [hδdrop] at hden
    refine ⟨?_, ?_, ?_⟩
    · intro e' h
      rw [hread] at h
      rw [hden, iherr e' h]
      rfl
    · intro h
      rw [hread] at h
      rw [hden, ihpan h]
      rfl
    · intro out st'' src'' i'' h
      rw [hread] at h
      obtain ⟨δ₂, hout, houtle, hden2, hD, hprog2⟩ := ihok out st'' src'' i'' h
      refine ⟨δ₀ ++ δ₂, ?_, houtle, ?_, hD, ?_⟩
      · rw [hout, hδ₀, List.append_assoc]
      · rw [hden, hden2, Res.mapOk_comp]
        exact Res.mapOk_congr _ (fun a => by rw [List.append_assoc])
      · rcases hprog2 with ⟨hstd, -, hst2, hsrc2⟩ | hlt | ⟨heq, hws⟩
        · -- inner call started in Done
          rcases hprog with h1 | ⟨h2, h3⟩
          · exact Or.inr (Or.inl (by rw [hsrc2]; exact h1))
          · refine Or.inr (Or.inr ⟨by rw [hsrc2, h2], ?_⟩)
            rw [hst2]
            rw [hstd] at h3
            exact h3
        · rcases hprog with h1 | ⟨h2, h3⟩
          · exact Or.inr (Or.inl (by omega))
          · exact Or.inr (Or.inl (by rw [h2] at hlt; exact hlt))
        · rcases hprog with h1 | ⟨h2, h3⟩
          · exact Or.inr (Or.inl (by rw [heq]; exact h1))
          · exact Or.inr (Or.inr ⟨by rw [heq, h2], by omega⟩)

end Expand

namespace Expand

/-- Drive `read` to `Ok(0)` the way `io::copy` and `Read::read_exact` do:
call `read` repeatedly with fresh (nonempty) destination buffers, of size
`max 1 (dsch j)` for the j-th call, until it reports zero bytes; an `Err`
or a panic aborts.  The returned list is the concatenation of all delivered
chunks. -/
def readToEnd (dsch sch : Nat → Nat) (j i : Nat) (st : St) (src : List Nat)
    (acc : List Nat) : Res (List Nat) :=
  match h : read sch i st src (max 1 (dsch j)) [] with
  | .err e => .err e
  | .panicked => .panicked
  | .ok (out, st', src', i') =>
    if out = [] then .ok acc
    else readToEnd dsch sch (j + 1) i' st' src' (acc ++ out)
termination_by (src.length, st.ws)
decreasing_by
  rename_i hout
  obtain ⟨δ, hδ, -, -, -, hprog⟩ :=
    (read_spec sch i st src (max 1 (dsch j)) []
      (by simp only [List.length_nil]; omega)).2.2 out st' src' i' h
  rcases hprog with ⟨-, habs, -, -⟩ | hlt | ⟨heq, hws⟩
  · exact absurd habs hout
  · exact Prod.Lex.left _ _ hlt
  · rw [heq]
    exact Prod.Lex.right _ hws

theorem readToEnd_eq_err {dsch sch : Nat → Nat} {j i : Nat} {st : St}
    {src acc : List Nat} {e : IOErrorKind}
    (h : read sch i st src (max 1 (dsch j)) [] = .err e) :
    readToEnd dsch sch j i st src acc = .err e := by
  rw [readToEnd]
  split
  · rename_i e' h'
    rw [h] at h'
    cases h'
    rfl
  · rename_i h'
    simp [h] at h'
  · rename_i out st' src' i' h'
    simp [h] at h'

theorem readToEnd_eq_panicked {dsch sch : Nat → Nat} {j i : Nat} {st : St}
    {src acc : List Nat}
    (h : read sch i st src (max 1 (dsch j)) [] = .panicked) :
    readToEnd dsch sch j i st src acc = .panicked := by
  rw [readToEnd]
  split
  · rename_i e' h'
    simp [h] at h'
  · rfl
  · rename_i out st' src' i' h'
    simp [h] at h'

theorem readToEnd_eq_ok {dsch sch : Nat → Nat} {j i : Nat} {st : St}
    {src acc out src' : List Nat} {st' : St} {i' : Nat}
    (h : read sch i st src (max 1 (dsch j)) [] = .ok (out, st', src', i')) :
    readToEnd dsch sch j i st src acc =
      if out = [] then .ok acc
      else readToEnd dsch sch (j + 1) i' st' src' (acc ++ out) := by
  rw [readToEnd]
  split
  · rename_i e' h'
    simp [h] at h'
  · rename_i h'
    simp [h] at h'
  · rename_i out2 st2 src2 i2 h'
    rw [h] at h'
    cases h'
    rfl

theorem readToEnd_denote (dsch sch : Nat → Nat) (j i : Nat) (st : St)
    (src : List Nat) (acc : List Nat) :
    readToEnd dsch sch j i st src acc =
      Res.mapOk (fun o => acc ++ o) (denote st src) := by
  induction j, i, st, src, acc using readToEnd.induct dsch sch with
  | case1 j i st src acc e h =>
    rw [readToEnd_eq_err h]
    rw [(read_spec sch i st src (max 1 (dsch j)) []
      (by simp only [List.length_nil]; omega)).1 e h]
    rfl
  | case2 j i st src acc h =>
    rw [readToEnd_eq_panicked h]
    rw [(read_spec sch i st src (max 1 (dsch j)) []
      (by simp only [List.length_nil]; omega)).2.1 h]
    rfl
  | case3 j i st src acc st' src' i' h =>
    rw [readToEnd_eq_ok h, if_pos rfl]
    obtain ⟨δ, hδ, -, hden, hD, -⟩ :=
      (read_spec sch i st src (max 1 (dsch j)) []
        (by simp only [List.length_nil]; omega)).2.2 [] st' src' i' h
    have hδnil : δ = [] := by simpa using hδ.symm
    subst hδnil
    have hst' : st' = .done := by
      rcases hD with hc | hd
      · simp at hc
      · exact hd
    subst hst'
    rw [hden, denote_done]
    simp [Res.mapOk]
  | case4 j i st src acc out st' src' i' h hout ih =>
    rw [readToEnd_eq_ok h, if_neg hout]
    obtain ⟨δ, hδ, -, hden, -, -⟩ :=
      (read_spec sch i st src (max 1 (dsch j)) []
        (by simp only [List.length_nil]; omega)).2.2 out st' src' i' h
    have hδout : out = δ := by simpa using hδ
    subst hδout
    rw [ih, hden, Res.mapOk_comp]
    exact Res.mapOk_congr _ (fun a => by rw [List.append_assoc])

/-- A fresh `BinHexExpander` (`State::Scan(None)`) read to end of stream. -/
def expandToEnd (dsch sch : Nat → Nat) (src : List Nat) : Res (List Nat) :=
  readToEnd dsch sch 0 0 (.scan none) src []

/-- The expander model delivers exactly its pure denotation, for every
destination-buffer schedule and every `BufReader` fill schedule. -/
theorem expandToEnd_denote (dsch sch : Nat → Nat) (src : List Nat) :
    expandToEnd dsch sch src = denote (.scan none) src := by
  rw [expandToEnd, readToEnd_denote]
  cases denote (.scan none) src <;> rfl

end Expand

namespace Expand

/-- `B, 0x90, N` at the start of the stream expands to `N` copies of `B`. -/
theorem denote_rle_triple (b n : Nat) (hb : b ≠ 144) (hn : 1 ≤ n) :
    denote (.scan none) [b, 144, n] = .ok (List.replicate n b) := by
  rw [denote_scan_cons, if_neg hb, denote_scan_cons, if_pos rfl,
    denote_escape_cons_some, if_neg (by omega), denote_expand, denote_scan_nil]
  simp only [Res.mapOk, List.append_nil]
  have h1 : n = (n - 1) + 1 := by omega
  rw [h1, List.replicate_succ]
  simp

/-- `0x90, 0x00` in the stream is a literal `0x90`, not a repeat. -/
theorem denote_literal_escape (b c : Nat) (hb : b ≠ 144) (hc : c ≠ 144) :
    denote (.scan none) [b, 144, 0, c] = .ok [b, 144, c] := by
  rw [denote_scan_cons, if_neg hb, denote_scan_cons, if_pos rfl,
    denote_escape_cons_some, if_pos rfl, denote_scan_cons, if_neg hc,
    denote_scan_nil]
  rfl

/-- A stream ending right after an escape byte is malformed. -/
theorem denote_trailing_escape (b : Nat) (hb : b ≠ 144) :
    denote (.scan none) [b, 144] = .err .invalidData := by
  rw [denote_scan_cons, if_neg hb, denote_scan_cons, if_pos rfl,
    denote_escape_nil]
  rfl

/-- An escape with a nonzero run length while no byte is remembered hits the
`advance` catch-all panic. -/
theorem denote_escape_none_run (n : Nat) (rest : List Nat) (hn : n ≠ 0) :
    denote (.scan none) (144 :: n :: rest) = .panicked := by
  rw [denote_scan_cons, if_pos rfl, denote_escape_cons_none, if_neg hn]

end Expand

/-! ## The encoded-data reader (`src/binhex/read.rs`) -/

namespace BinRead

/-- The whitespace set `b" \t\r\n"` used by read.rs. -/
def isWs (b : Nat) : Bool := b == 32 || b == 9 || b == 13 || b == 10

/-- `memchr::memchr3`: index of the first occurrence of any of three needles. -/
def memchr3 (a b c : Nat) : List Nat → Option Nat
  | [] => none
  | x :: t => if x = a ∨ x = b ∨ x = c then some 0 else (memchr3 a b c t).map (· + 1)

theorem memchr3_cons (a b c x : Nat) (t : List Nat) :
    memchr3 a b c (x :: t) =
      if x = a ∨ x = b ∨ x = c then some 0 else (memchr3 a b c t).map (· + 1) := rfl

theorem memchr3_some_lt {a b c : Nat} {l : List Nat} {i : Nat}
    (h : memchr3 a b c l = some i) : i < l.length := by
  induction l generalizing i with
  | nil => simp [memchr3] at h
  | cons x t ih =>
    rw [memchr3_cons] at h
    split at h
    · cases h; simp
    · cases hm : memchr3 a b c t with
      | none => rw [hm] at h; simp at h
      | some j =>
        rw [hm] at h
        simp only [Option.map_some'] at h
        cases h
        have := ih hm
        simp
        omega

theorem memchr3_none_not_mem {a b c : Nat} {l : List Nat}
    (h : memchr3 a b c l = none) : ∀ x ∈ l, x ≠ a ∧ x ≠ b ∧ x ≠ c := by
  induction l with
  | nil => simp
  | cons y t ih =>
    rw [memchr3_cons] at h
    split at h
    · simp at h
    · intro x hmem
      rcases List.mem_cons.mp hmem with h1 | h2
      · subst h1; tauto
      · cases hm : memchr3 a b c t with
        | none => exact ih hm x h2
        | some j => rw [hm] at h; simp at h

theorem memchr3_some_getD {a b c : Nat} {l : List Nat} {i : Nat}
    (h : memchr3 a b c l = some i) :
    l.getD i 0 = a ∨ l.getD i 0 = b ∨ l.getD i 0 = c := by
  induction l generalizing i with
  | nil => simp [memchr3] at h
  | cons x t ih =>
    rw [memchr3_cons] at h
    split at h
    · cases h; simpa
    · cases hm : memchr3 a b c t with
      | none => rw [hm] at h; simp at h
      | some j =>
        rw [hm] at h
        simp only [Option.map_some'] at h
        cases h
        simp only [List.getD_cons_succ]
        exact ih hm

theorem memchr3_some_take {a b c : Nat} {l : List Nat} {i : Nat}
    (h : memchr3 a b c l = some i) :
    ∀ x ∈ l.take i, x ≠ a ∧ x ≠ b ∧ x ≠ c := by
  induction l generalizing i with
  | nil => simp [memchr3] at h
  | cons x t ih =>
    rw [memchr3_cons] at h
    split at h
    · cases h; simp
    · cases hm : memchr3 a b c t with
      | none => rw [hm] at h; simp at h
      | some j =>
        rw [hm] at h
        simp only [Option.map_some'] at h
        cases h
        intro y hy
        rw [List.take_succ_cons] at hy
        rcases List.mem_cons.mp hy with h1 | h2
        · subst h1; tauto
        · exact ih hm y h2

/-- Elements strictly before a `memchr` hit differ from the needle. -/
theorem memchr_some_take {needle : Nat} {l : List Nat} {i : Nat}
    (h : memchr needle l = some i) : ∀ x ∈ l.take i, x ≠ needle :=
  fun x hx hxe => memchr_none_not_mem (memchr_some_take_none h) (hxe ▸ hx)

/-- `next_whitespace` (read.rs lines 190-198). -/
def next_whitespace (bytes : List Nat) : Option Nat :=
  match memchr 32 bytes, memchr3 9 13 10 bytes with
  | some a, some b => some (min a b)
  | a, b => a.or b

theorem next_whitespace_some_lt {bytes : List Nat} {k : Nat}
    (h : next_whitespace bytes = some k) : k < bytes.length := by
  unfold next_whitespace at h
  cases hm : memchr 32 bytes with
  | some a =>
    cases hm3 : memchr3 9 13 10 bytes with
    | some b =>
      rw [hm, hm3] at h
      cases h
      rcases min_choice a b with he | he <;> rw [he]
      · exact memchr_some_lt hm
      · exact memchr3_some_lt hm3
    | none =>
      rw [hm, hm3] at h
      simp only [Option.or_none] at h
      cases h
      exact memchr_some_lt hm
  | none =>
    cases hm3 : memchr3 9 13 10 bytes with
    | some b =>
      rw [hm, hm3] at h
      simp only [Option.none_or] at h
      cases h
      exact memchr3_some_lt hm3
    | none =>
      rw [hm, hm3] at h
      simp at h

theorem next_whitespace_some_ws {bytes : List Nat} {k : Nat}
    (h : next_whitespace bytes = some k) : isWs (bytes.getD k 0) = true := by
  unfold next_whitespace at h
  cases hm : memchr 32 bytes with
  | some a =>
    cases hm3 : memchr3 9 13 10 bytes with
    | some b =>
      rw [hm, hm3] at h
      cases h
      rcases min_choice a b with he | he <;> rw [he]
      · have hg := memchr_some_getD hm
        simp only [isWs]
        rw [hg]
        rfl
      · rcases memchr3_some_getD hm3 with h1 | h1 | h1 <;>
          · simp only [isWs]; rw [h1]; rfl
    | none =>
      rw [hm, hm3] at h
      simp only [Option.or_none] at h
      cases h
      have hg := memchr_some_getD hm
      simp only [isWs]
      rw [hg]
      rfl
  | none =>
    cases hm3 : memchr3 9 13 10 bytes with
    | some b =>
      rw [hm, hm3] at h
      simp only [Option.none_or] at h
      cases h
      rcases memchr3_some_getD hm3 with h1 | h1 | h1 <;>
        · simp only [isWs]; rw [h1]; rfl
    | none =>
      rw [hm, hm3] at h
      simp at h

theorem next_whitespace_take {bytes : List Nat} {k : Nat}
    (h : next_whitespace bytes = some k) :
    ∀ x ∈ bytes.take k, isWs x = false := by
  unfold next_whitespace at h
  intro x hx
  cases hm : memchr 32 bytes with
  | some a =>
    cases hm3 : memchr3 9 13 10 bytes with
    | some b =>
      rw [hm, hm3] at h
      cases h
      have hxa : x ∈ bytes.take a := by
        have he : bytes.take (min a b) = (bytes.take a).take (min a b) := by
          rw [List.take_take]
          congr 1
          omega
        exact List.take_subset _ _ (he ▸ hx)
      have hxb : x ∈ bytes.take b := by
        have he : bytes.take (min a b) = (bytes.take b).take (min a b) := by
          rw [List.take_take]
          congr 1
          omega
        exact List.take_subset _ _ (he ▸ hx)
      have h1 := memchr_some_take hm x hxa
      have h2 := memchr3_some_take hm3 x hxb
      simp [isWs]
      tauto
    | none =>
      rw [hm, hm3] at h
      simp only [Option.or_none] at h
      cases h
      have h1 := memchr_some_take hm x hx
      have h2 := memchr3_none_not_mem hm3 x (List.take_subset _ _ hx)
      simp [isWs]
      tauto
  | none =>
    cases hm3 : memchr3 9 13 10 bytes with
    | some b =>
      rw [hm, hm3] at h
      simp only [Option.none_or] at h
      cases h
      have h1 := memchr_none_not_mem hm
      have h2 := memchr3_some_take hm3 x hx
      have h1x : x ≠ 32 := fun he => h1 (he ▸ List.take_subset _ _ hx)
      simp [isWs]
      tauto
    | none =>
      rw [hm, hm3] at h
      simp at h

theorem next_whitespace_none {bytes : List Nat}
    (h : next_whitespace bytes = none) : ∀ x ∈ bytes, isWs x = false := by
  unfold next_whitespace at h
  intro x hx
  cases hm : memchr 32 bytes with
  | some a =>
    cases hm3 : memchr3 9 13 10 bytes with
    | some b => rw [hm, hm3] at h; simp at h
    | none => rw [hm, hm3] at h; simp at h
  | none =>
    cases hm3 : memchr3 9 13 10 bytes with
    | some b => rw [hm, hm3] at h; simp at h
    | none =>
      have h1 := memchr_none_not_mem hm
      have h2 := memchr3_none_not_mem hm3 x hx
      have h1x : x ≠ 32 := fun he => h1 (he ▸ hx)
      simp [isWs]
      tauto

/-- `next_data_byte` (read.rs lines 201-213). -/
def next_data_byte (bytes : List Nat) : Option Nat :=
  if bytes = [] then none
  else
    if (bytes.takeWhile (fun b => isWs b)).length = bytes.length then none
    else some (bytes.takeWhile (fun b => isWs b)).length

theorem next_data_byte_some {bytes : List Nat} {s : Nat}
    (h : next_data_byte bytes = some s) :
    s < bytes.length ∧ isWs (bytes.getD s 0) = false ∧
      ∀ j, j < s → isWs (bytes.getD j 0) = true := by
  induction bytes generalizing s with
  | nil => simp [next_data_byte] at h
  | cons b t ih =>
    cases hb : isWs b with
    | true =>
      unfold next_data_byte at h
      rw [if_neg (List.cons_ne_nil b t), List.takeWhile_cons, hb] at h
      simp only [if_true, List.length_cons] at h
      split at h
      · exact absurd h (by simp)
      · rename_i hne
        injection h with h
        subst h
        have htne : t ≠ [] := by
          intro he
          subst he
          simp at hne
        have hts : next_data_byte t = some (t.takeWhile (fun b => isWs b)).length := by
          unfold next_data_byte
          rw [if_neg htne, if_neg (by omega)]
        obtain ⟨ih1, ih2, ih3⟩ := ih hts
        refine ⟨by simp only [List.length_cons]; omega, by simpa using ih2, ?_⟩
        intro j hj
        cases j with
        | zero => simpa using hb
        | succ j' =>
          simp only [List.getD_cons_succ]
          exact ih3 j' (by omega)
    | false =>
      have he : next_data_byte (b :: t) = some 0 := by
        simp [next_data_byte, List.takeWhile_cons, hb]
      rw [he] at h
      injection h with h
      subst h
      refine ⟨by simp, by simpa using hb, ?_⟩
      intro j hj
      exact absurd hj (Nat.not_lt_zero j)

theorem next_data_byte_none {bytes : List Nat}
    (h : next_data_byte bytes = none) : ∀ b ∈ bytes, isWs b = true := by
  induction bytes with
  | nil => simp
  | cons b t ih =>
    cases hb : isWs b with
    | true =>
      unfold next_data_byte at h
      rw [if_neg (List.cons_ne_nil b t), List.takeWhile_cons, hb] at h
      simp only [if_true, List.length_cons] at h
      split at h
      · rename_i he
        have hts : next_data_byte t = none := by
          unfold next_data_byte
          split
          · rfl
          · rw [if_pos (by omega)]
        intro x hx
        rcases List.mem_cons.mp hx with h1 | h2
        · subst h1; exact hb
        · exact ih hts x h2
      · simp at h
    | false =>
      have he : next_data_byte (b :: t) = some 0 := by
        simp [next_data_byte, List.takeWhile_cons, hb]
      rw [he] at h
      cases h

/-- `compact` (read.rs lines 221-241), returning the compacted bytes (the
Rust function shifts them to the front of the slice in place and returns
their count; callers use exactly that prefix). -/
def compact (bytes : List Nat) : List Nat :=
  match h : next_data_byte bytes with
  | none => []
  | some s =>
    (bytes.drop s).take ((next_whitespace (bytes.drop s)).getD (bytes.drop s).length) ++
      compact ((bytes.drop s).drop
        ((next_whitespace (bytes.drop s)).getD (bytes.drop s).length))
termination_by bytes.length
decreasing_by
  obtain ⟨h1, h2, _⟩ := next_data_byte_some h
  have hlen : 1 ≤ (next_whitespace (bytes.drop s)).getD (bytes.drop s).length := by
    cases hw : next_whitespace (bytes.drop s) with
    | none =>
      simp only [Option.getD_none]
      simp only [List.length_drop]
      omega
    | some k =>
      simp only [Option.getD_some]
      rcases Nat.eq_zero_or_pos k with hk | hk
      · subst hk
        have := next_whitespace_some_ws hw
        rw [List.getD_eq_getElem?_getD, List.getElem?_drop, ← List.getD_eq_getElem?_getD] at this
        simp only [Nat.add_zero] at this
        rw [h2] at this
        cases this
      · omega
  simp only [List.drop_drop, List.length_drop]
  simp only [List.length_drop] at hlen
  omega

/-- Unfolding `compact` when the slice is all whitespace. -/
theorem compact_none {bytes : List Nat} (h : next_data_byte bytes = none) :
    compact bytes = [] := by
  rw [compact]
  split
  · rfl
  · rename_i s hs
    rw [h] at hs
    cases hs

/-- Unfolding `compact` at a non-whitespace chunk. -/
theorem compact_some {bytes : List Nat} {s : Nat} (h : next_data_byte bytes = some s) :
    compact bytes =
      (bytes.drop s).take ((next_whitespace (bytes.drop s)).getD (bytes.drop s).length) ++
        compact ((bytes.drop s).drop
          ((next_whitespace (bytes.drop s)).getD (bytes.drop s).length)) := by
  rw [compact]
  split
  · rename_i hn
    rw [h] at hn
    cases hn
  · rename_i s2 hs
    rw [h] at hs
    injection hs with hs
    subst hs
    rfl

/-- `compact` keeps exactly the non-whitespace bytes, in order. -/
theorem compact_eq_filter (bytes : List Nat) :
    compact bytes = bytes.filter (fun b => !isWs b) := by
  induction bytes using compact.induct with
  | case1 bytes h =>
    rw [compact_none h]
    have hall := next_data_byte_none h
    symm
    rw [List.filter_eq_nil]
    intro a ha
    simp [hall a ha]
  | case2 bytes s h ih =>
    rw [compact_some h]
    obtain ⟨h1, h2, h3⟩ := next_data_byte_some h
    -- split bytes into the whitespace prefix and the rest
    have hsplit : bytes = bytes.take s ++ bytes.drop s := (List.take_append_drop s bytes).symm
    have hwsPre : ∀ b ∈ bytes.take s, isWs b = true := by
      intro x hx
      obtain ⟨j, hj, hbj⟩ := List.mem_take_iff_getElem.mp hx
      have hjb : j < bytes.length := by omega
      have hg := h3 j (by omega)
      rw [List.getD_eq_getElem?_getD, List.getElem?_eq_getElem hjb] at hg
      simp only [Option.getD_some] at hg
      rw [← hbj]
      exact hg
    -- the chunk is whitespace-free, and everything before the chunk end is non-ws
    set r := bytes.drop s with hr
    set len := (next_whitespace r).getD r.length with hlen
    have hchunkNoWs : ∀ b ∈ r.take len, isWs b = false := by
      cases hw : next_whitespace r with
      | none =>
        intro b hb
        exact next_whitespace_none hw b (List.take_subset _ _ hb)
      | some k =>
        have : len = k := by rw [hlen, hw, Option.getD_some]
        rw [this]
        exact next_whitespace_take hw
    conv_rhs => rw [hsplit]
    rw [List.filter_append]
    have hfpre : (bytes.take s).filter (fun b => !isWs b) = [] := by
      rw [List.filter_eq_nil]
      intro a ha
      simp [hwsPre a ha]
    rw [hfpre, List.nil_append]
    conv_rhs => rw [← List.take_append_drop len r]
    rw [List.filter_append]
    have hfchunk : (r.take len).filter (fun b => !isWs b) = r.take len := by
      rw [List.filter_eq_self]
      intro a ha
      simp [hchunkNoWs a ha]
    rw [hfchunk, ih]

/-- The 40-byte banner `"(This file must be converted with BinHex"`
(read.rs line 4). -/
def BANNER : List Nat :=
  [40, 84, 104, 105, 115, 32, 102, 105, 108, 101, 32, 109, 117, 115, 116, 32,
   98, 101, 32, 99, 111, 110, 118, 101, 114, 116, 101, 100, 32, 119, 105, 116,
   104, 32, 66, 105, 110, 72, 101, 120]

/-- `State` from read.rs (lines 128-145). -/
inductive St where
  | findBannerStart : St
  | partialBannerMatch : Nat → St
  | findDataStart : St
  | readData : St
  | done : St
  deriving DecidableEq, Repr

/-- Secondary measure for the inner consume loop: a banner mismatch retries
the same bytes in `findBannerStart`, consuming nothing. -/
def St.rank : St → Nat
  | .partialBannerMatch _ => 1
  | _ => 0

/-- The `PartialBannerMatch` argument the machine can actually reach: the
state is created with `1` and only grown while `matched + check_len` stays
below `BANNER.len()` (advance returns `FindDataStart` at 40). -/
def St.wf : St → Prop
  | .partialBannerMatch m => m ≤ 39
  | _ => True

/-- One pass of the inner `while bytes_consumed < bytes_read` loop of
`EncodedBinHexReader::read` (read.rs lines 43-119) over one freshly read
chunk, returning the final state and the bytes copied to the caller.
The `40 - matched = 0` guard covers the `BANNER.len() - matched` usize
subtraction, which cannot underflow for the reachable states
(`St.wf`). -/
def chunkStep (st : St) (pending : List Nat) : St × List Nat :=
  if pending = [] then (st, [])
  else
    match st with
    | .done => (.done, [])
    | .findBannerStart =>
      match memchr 40 pending with
      | some s => chunkStep (.partialBannerMatch 1) (pending.drop (s + 1))
      | none => (.findBannerStart, [])
    | .partialBannerMatch matched =>
      if 40 - matched = 0 then (.partialBannerMatch matched, [])
      else
        if pending.take (min pending.length (40 - matched)) =
            (BANNER.drop matched).take (min pending.length (40 - matched)) then
          if matched + min pending.length (40 - matched) = 40 then
            chunkStep .findDataStart (pending.drop (min pending.length (40 - matched)))
          else
            chunkStep (.partialBannerMatch (matched + min pending.length (40 - matched)))
              (pending.drop (min pending.length (40 - matched)))
        else chunkStep .findBannerStart pending
    | .findDataStart =>
      match memchr 58 pending with
      | some p => chunkStep .readData (pending.drop (p + 1))
      | none => (.findDataStart, [])
    | .readData =>
      match next_data_byte pending with
      | none => (.readData, [])
      | some start =>
        match memchr 58 (compact (pending.drop start)) with
        | some dataEnd => (.done, (compact (pending.drop start)).take dataEnd)
        | none => (.readData, compact (pending.drop start))
termination_by (pending.length, st.rank)
decreasing_by
  · apply Prod.Lex.left
    have : pending.length ≠ 0 := by
      intro he
      exact (by assumption : ¬pending = []) (List.length_eq_zero.mp he)
    simp only [List.length_drop]
    omega
  · apply Prod.Lex.left
    have : pending.length ≠ 0 := by
      intro he
      exact (by assumption : ¬pending = []) (List.length_eq_zero.mp he)
    simp only [List.length_drop]
    omega
  · apply Prod.Lex.left
    have : pending.length ≠ 0 := by
      intro he
      exact (by assumption : ¬pending = []) (List.length_eq_zero.mp he)
    simp only [List.length_drop]
    omega
  · apply Prod.Lex.right
    simp [St.rank]
  · apply Prod.Lex.left
    have : pending.length ≠ 0 := by
      intro he
      exact (by assumption : ¬pending = []) (List.length_eq_zero.mp he)
    simp only [List.length_drop]
    omega

/-- `EncodedBinHexReader::read` (read.rs lines 27-123).  `cap` is the
caller's buffer length; each outer-loop iteration reads a fresh chunk of
`1 ≤ k ≤ min cap src.length` bytes from the source (the size picked by the
schedule `sch`, whose counter `i` advances per call), runs the inner consume
loop over it, and repeats while no bytes were copied and the state is not
`Done`.  A read returning `0` bytes while data is still expected is the
`ErrorKind::UnexpectedEof` return (line 37); the model's source returns
zero bytes exactly when it is exhausted. -/
def read (sch : Nat → Nat) (i : Nat) (st : St) (src : List Nat) (cap : Nat) :
    Except IOErrorKind (List Nat × St × List Nat × Nat) :=
  if cap = 0 then .ok ([], st, src, i)
  else if st = .done then .ok ([], st, src, i)
  else if src = [] then .error .unexpectedEof
  else
    if (chunkStep st (src.take (max 1 (min (sch i) (min cap src.length))))).2 = [] ∧
        (chunkStep st (src.take (max 1 (min (sch i) (min cap src.length))))).1 ≠ .done then
      read sch (i + 1) (chunkStep st (src.take (max 1 (min (sch i) (min cap src.length))))).1
        (src.drop (max 1 (min (sch i) (min cap src.length)))) cap
    else
      .ok ((chunkStep st (src.take (max 1 (min (sch i) (min cap src.length))))).2,
        (chunkStep st (src.take (max 1 (min (sch i) (min cap src.length))))).1,
        src.drop (max 1 (min (sch i) (min cap src.length))), i + 1)
termination_by src.length
decreasing_by
  have : src.length ≠ 0 := by
    intro he
    exact (by assumption : ¬src = []) (List.length_eq_zero.mp he)
  simp only [List.length_drop]
  omega

/-- A successful `read` that copied bytes has consumed source bytes (at
least one chunk of at least one byte). -/
theorem read_progress (sch : Nat → Nat) (i : Nat) (st : St) (src : List Nat)
    (cap : Nat) :
    ∀ out st2 src2 i2, read sch i st src cap = .ok (out, st2, src2, i2) →
      src2.length ≤ src.length ∧ (out ≠ [] → src2.length < src.length) := by
  induction i, st, src, cap using read.induct sch with
  | case1 i st src =>
    intro out st2 src2 i2 h
    rw [read, if_pos rfl] at h
    injection h with h
    injection h with h1 h
    injection h with h2 h
    injection h with h3 h4
    subst h1; subst h3
    exact ⟨le_refl _, fun hne => absurd rfl hne⟩
  | case2 i src cap hcap =>
    intro out st2 src2 i2 h
    rw [read, if_neg hcap, if_pos rfl] at h
    injection h with h
    injection h with h1 h
    injection h with h2 h
    injection h with h3 h4
    subst h1; subst h3
    exact ⟨le_refl _, fun hne => absurd rfl hne⟩
  | case3 i st cap hcap hdone =>
    intro out st2 src2 i2 h
    rw [read, if_neg hcap, if_neg hdone, if_pos rfl] at h
    cases h
  | case4 i st src cap hcap hdone hnil hloop ih =>
    intro out st2 src2 i2 h
    rw [read, if_neg hcap, if_neg hdone, if_neg hnil, if_pos hloop] at h
    have hlt : (src.drop (max 1 (min (sch i) (min cap src.length)))).length < src.length := by
      have : src.length ≠ 0 := by
        intro he
        exact hnil (List.length_eq_zero.mp he)
      simp only [List.length_drop]
      omega
    obtain ⟨ha, _⟩ := ih out st2 src2 i2 h
    exact ⟨by omega, fun _ => by omega⟩
  | case5 i st src cap hcap hdone hnil hloop =>
    intro out st2 src2 i2 h
    rw [read, if_neg hcap, if_neg hdone, if_neg hnil, if_neg hloop] at h
    injection h with h
    injection h with h1 h
    injection h with h2 h
    injection h with h3 h4
    subst h3
    have hlt : (src.drop (max 1 (min (sch i) (min cap src.length)))).length < src.length := by
      have : src.length ≠ 0 := by
        intro he
        exact hnil (List.length_eq_zero.mp he)
      simp only [List.length_drop]
      omega
    exact ⟨by omega, fun _ => by omega⟩

/-- `Read::read_to_end` driving `EncodedBinHexReader::read` until it
returns zero bytes, accumulating the copied chunks.  `dsch` schedules the
destination buffer capacity per call (clipped to at least one byte). -/
def readToEnd (dsch sch : Nat → Nat) (j i : Nat) (st : St) (src : List Nat)
    (acc : List Nat) : Except IOErrorKind (List Nat) :=
  match h : read sch i st src (max 1 (dsch j)) with
  | .error e => .error e
  | .ok (out, st2, src2, i2) =>
    if out = [] then .ok acc
    else readToEnd dsch sch (j + 1) i2 st2 src2 (acc ++ out)
termination_by src.length
decreasing_by
  exact ((read_progress sch i st src (max 1 (dsch j)) out st2 src2 i2 h).2 (by assumption))

/-- The whole `EncodedBinHexReader` pipeline: construct the reader in
`FindBannerStart` (read.rs line 21) and `read_to_end` through it. -/
def readAll (dsch sch : Nat → Nat) (src : List Nat) : Except IOErrorKind (List Nat) :=
  readToEnd dsch sch 0 0 .findBannerStart src []

/-- `stripData`: the still-encoded payload is everything before the closing
`:`, with whitespace removed; with no closing `:` the reader keeps waiting
for more input and fails with `UnexpectedEof` at end of input. -/
def stripData (l : List Nat) : Except IOErrorKind (List Nat) :=
  if 58 ∈ l then .ok ((l.takeWhile (fun b => !(b == 58))).filter (fun b => !isWs b))
  else .error .unexpectedEof

/-- The suffix after the first occurrence of the complete banner, if any. -/
def dropBannerSuffix : List Nat → Option (List Nat)
  | [] => none
  | b :: t =>
    if BANNER.isPrefixOf (b :: t) then some ((b :: t).drop 40) else dropBannerSuffix t

/-- The suffix after the first `:` (the data-start delimiter), if any. -/
def dropThroughColon : List Nat → Option (List Nat)
  | [] => none
  | b :: t => if b = 58 then some t else dropThroughColon t

/-- Denotation from the `FindDataStart` state. -/
def denoteColon (l : List Nat) : Except IOErrorKind (List Nat) :=
  match dropThroughColon l with
  | none => .error .unexpectedEof
  | some t => stripData t

/-- Denotation from the `FindBannerStart` state. -/
def denoteBanner (l : List Nat) : Except IOErrorKind (List Nat) :=
  match dropBannerSuffix l with
  | none => .error .unexpectedEof
  | some t => denoteColon t

/-- The pure specification of the encoded-data reader: find the banner,
find the `:` after it, then return the whitespace-stripped bytes up to the
closing `:`; any of the three missing is an `UnexpectedEof`. -/
def stripPure (input : List Nat) : Except IOErrorKind (List Nat) := denoteBanner input

/-- What each reader state means, given the remaining source bytes. -/
def denoteRd : St → List Nat → Except IOErrorKind (List Nat)
  | .findBannerStart, rem => denoteBanner rem
  | .partialBannerMatch m, rem => denoteBanner (BANNER.take m ++ rem)
  | .findDataStart, rem => denoteColon rem
  | .readData, rem => stripData rem
  | .done, _ => .ok []

theorem exMap_err (f : List Nat → List Nat) (e : IOErrorKind) :
    Except.map f (.error e : Except IOErrorKind (List Nat)) = .error e := rfl

theorem exMap_ok (f : List Nat → List Nat) (l : List Nat) :
    Except.map f (.ok l : Except IOErrorKind (List Nat)) = .ok (f l) := rfl

theorem exMap_nil (x : Except IOErrorKind (List Nat)) :
    Except.map (fun o => [] ++ o) x = x := by
  cases x <;> simp [Except.map]

theorem exMap_id (x : Except IOErrorKind (List Nat)) :
    Except.map (fun o => o) x = x := by
  cases x <;> simp [Except.map]

theorem exMap_append (a b : List Nat) (x : Except IOErrorKind (List Nat)) :
    Except.map (fun o => a ++ o) (Except.map (fun o => b ++ o) x) =
      Except.map (fun o => (a ++ b) ++ o) x := by
  cases x <;> simp [Except.map]

theorem banner_cons : BANNER = 40 :: BANNER.drop 1 := rfl

theorem banner_length : BANNER.length = 40 := rfl

theorem banner_tail_no_paren : ∀ b ∈ BANNER.drop 1, b ≠ 40 := by decide

theorem isWs_58 : isWs 58 = false := rfl

theorem dropBannerSuffix_cons (b : Nat) (t : List Nat) :
    dropBannerSuffix (b :: t) =
      if BANNER.isPrefixOf (b :: t) then some ((b :: t).drop 40)
      else dropBannerSuffix t := rfl

theorem dropBannerSuffix_no_paren {c : List Nat} (l : List Nat)
    (hc : ∀ b ∈ c, b ≠ 40) : dropBannerSuffix (c ++ l) = dropBannerSuffix l := by
  induction c with
  | nil => simp
  | cons b t ih =>
    rw [List.cons_append, dropBannerSuffix_cons]
    have hnp : ¬(BANNER.isPrefixOf (b :: (t ++ l)) = true) := by
      intro hpre
      have h1 : BANNER <+: b :: (t ++ l) := List.isPrefixOf_iff_prefix.mp hpre
      rw [banner_cons] at h1
      exact hc b (List.mem_cons_self ..) (List.cons_prefix_cons.mp h1).1.symm
    rw [if_neg hnp]
    exact ih (fun x hx => hc x (List.mem_cons_of_mem _ hx))

theorem dropBannerSuffix_banner (l : List Nat) :
    dropBannerSuffix (BANNER ++ l) = some l := by
  have he : BANNER ++ l = 40 :: (BANNER.drop 1 ++ l) := by
    conv_lhs => rw [banner_cons]
    rw [List.cons_append]
  rw [he, dropBannerSuffix_cons, ← he]
  rw [if_pos (List.isPrefixOf_iff_prefix.mpr (List.prefix_append _ _))]
  rw [← banner_length, List.drop_left]

theorem dropBannerSuffix_short {l : List Nat} (h : l.length < 40) :
    dropBannerSuffix l = none := by
  induction l with
  | nil => rfl
  | cons b t ih =>
    rw [dropBannerSuffix_cons]
    have hnp : ¬(BANNER.isPrefixOf (b :: t) = true) := by
      intro hpre
      have hle := (List.isPrefixOf_iff_prefix.mp hpre).length_le
      rw [banner_length] at hle
      simp only [List.length_cons] at h hle
      omega
    rw [if_neg hnp]
    exact ih (by simp only [List.length_cons] at h; omega)

theorem banner_prefix_take_iff {m : Nat} (l : List Nat) :
    BANNER.isPrefixOf (BANNER.take m ++ l) = true ↔
      (BANNER.drop m).isPrefixOf l = true := by
  rw [List.isPrefixOf_iff_prefix, List.isPrefixOf_iff_prefix]
  constructor
  · rintro ⟨t, ht⟩
    refine ⟨t, ?_⟩
    have hb : BANNER.take m ++ (BANNER.drop m ++ t) = BANNER.take m ++ l := by
      rw [← List.append_assoc, List.take_append_drop]
      exact ht
    exact List.append_cancel_left hb
  · rintro ⟨t, ht⟩
    refine ⟨t, ?_⟩
    conv_lhs => rw [← List.take_append_drop m BANNER]
    rw [List.append_assoc, ht]

theorem dropBannerSuffix_peel {m : Nat} (l : List Nat) (hm : m ≤ 39)
    (hnp : ¬((BANNER.drop m).isPrefixOf l = true)) :
    dropBannerSuffix (BANNER.take m ++ l) = dropBannerSuffix l := by
  cases m with
  | zero => simp
  | succ m0 =>
    have htake : BANNER.take (m0 + 1) = 40 :: (BANNER.drop 1).take m0 := by
      conv_lhs => rw [banner_cons]
      rw [List.take_succ_cons]
    rw [htake, List.cons_append]
    rw [dropBannerSuffix_cons]
    have hnp2 : ¬(BANNER.isPrefixOf (40 :: ((BANNER.drop 1).take m0 ++ l)) = true) := by
      intro hpre
      rw [← List.cons_append, ← htake] at hpre
      exact hnp ((banner_prefix_take_iff l).mp hpre)
    rw [if_neg hnp2]
    exact dropBannerSuffix_no_paren l
      (fun x hx => banner_tail_no_paren x (List.take_subset _ _ hx))

theorem banner_no_prefix_of_take_ne {m : Nat} {pending rest : List Nat}
    (hne : pending.take (min pending.length (40 - m)) ≠
      (BANNER.drop m).take (min pending.length (40 - m))) :
    ¬((BANNER.drop m).isPrefixOf (pending ++ rest) = true) := by
  intro hpre
  apply hne
  obtain ⟨t, ht⟩ := List.isPrefixOf_iff_prefix.mp hpre
  have h1 : pending.take (min pending.length (40 - m)) =
      (pending ++ rest).take (min pending.length (40 - m)) :=
    (List.take_append_of_le_length (min_le_left _ _)).symm
  have hdl : (BANNER.drop m).length = 40 - m := by
    rw [List.length_drop, banner_length]
  have h2 : (BANNER.drop m).take (min pending.length (40 - m)) =
      ((BANNER.drop m) ++ t).take (min pending.length (40 - m)) :=
    (List.take_append_of_le_length (by rw [hdl]; exact min_le_right _ _)).symm
  rw [h1, h2, ht]

theorem dropThroughColon_cons (b : Nat) (t : List Nat) :
    dropThroughColon (b :: t) = if b = 58 then some t else dropThroughColon t := rfl

theorem dropThroughColon_no_colon {c : List Nat} (l : List Nat)
    (hc : ∀ b ∈ c, b ≠ 58) : dropThroughColon (c ++ l) = dropThroughColon l := by
  induction c with
  | nil => simp
  | cons b t ih =>
    rw [List.cons_append, dropThroughColon_cons,
      if_neg (hc b (List.mem_cons_self ..))]
    exact ih (fun x hx => hc x (List.mem_cons_of_mem _ hx))

theorem dropThroughColon_colon {c : List Nat} (l : List Nat)
    (hc : ∀ b ∈ c, b ≠ 58) : dropThroughColon (c ++ 58 :: l) = some l := by
  rw [dropThroughColon_no_colon _ hc, dropThroughColon_cons, if_pos rfl]

theorem takeWhile_append_all {p : Nat → Bool} {c : List Nat} (l : List Nat)
    (hc : ∀ b ∈ c, p b = true) :
    (c ++ l).takeWhile p = c ++ l.takeWhile p := by
  induction c with
  | nil => simp
  | cons b t ih =>
    rw [List.cons_append, List.takeWhile_cons, hc b (List.mem_cons_self ..), if_pos rfl]
    rw [ih (fun x hx => hc x (List.mem_cons_of_mem _ hx))]
    rfl

theorem takeWhile_cons_neg {p : Nat → Bool} {b : Nat} (t : List Nat)
    (hb : p b = false) : (b :: t).takeWhile p = [] := by
  rw [List.takeWhile_cons, hb]
  rfl

theorem filter_takeWhile_comm {p q : Nat → Bool} (hpq : ∀ b, p b = false → q b = true) :
    ∀ l : List Nat, (l.takeWhile q).filter p = (l.filter p).takeWhile q := by
  intro l
  induction l with
  | nil => simp
  | cons b t ih =>
    cases hq : q b with
    | true =>
      cases hp : p b with
      | true => simp [List.takeWhile_cons, List.filter_cons, hq, hp, ih]
      | false => simp [List.takeWhile_cons, List.filter_cons, hq, hp, ih]
    | false =>
      have hp : p b = true := by
        cases hpb : p b
        · have hk := hpq b hpb
          rw [hq] at hk
          cases hk
        · rfl
      simp [List.takeWhile_cons, List.filter_cons, hq, hp]

theorem stripData_no_colon {c : List Nat} (l : List Nat) (hc : 58 ∉ c) :
    stripData (c ++ l) =
      Except.map (fun o => c.filter (fun b => !isWs b) ++ o) (stripData l) := by
  unfold stripData
  have hmem : (58 ∈ c ++ l) ↔ 58 ∈ l := by
    rw [List.mem_append]
    constructor
    · rintro (hx | hx)
      · exact absurd hx hc
      · exact hx
    · exact Or.inr
  by_cases hl : 58 ∈ l
  · rw [if_pos (hmem.mpr hl), if_pos hl]
    rw [takeWhile_append_all l (fun b hb => by
      have hbne : b ≠ 58 := fun he => hc (he ▸ hb)
      simp [hbne])]
    rw [List.filter_append]
    rfl
  · rw [if_neg (fun hx => hl (hmem.mp hx)), if_neg hl]
    rfl

theorem stripData_colon {c : List Nat} (l : List Nat) (hc : 58 ∉ c) :
    stripData (c ++ 58 :: l) = .ok (c.filter (fun b => !isWs b)) := by
  unfold stripData
  rw [if_pos (by simp)]
  rw [takeWhile_append_all (58 :: l) (fun b hb => by
    have hbne : b ≠ 58 := fun he => hc (he ▸ hb)
    simp [hbne])]
  rw [takeWhile_cons_neg l (by simp)]
  rw [List.filter_append, List.filter_nil, List.append_nil]

theorem denoteBanner_some {l t : List Nat} (h : dropBannerSuffix l = some t) :
    denoteBanner l = denoteColon t := by
  unfold denoteBanner
  rw [h]

theorem denoteBanner_none {l : List Nat} (h : dropBannerSuffix l = none) :
    denoteBanner l = .error .unexpectedEof := by
  unfold denoteBanner
  rw [h]

theorem denoteColon_some {l t : List Nat} (h : dropThroughColon l = some t) :
    denoteColon l = stripData t := by
  unfold denoteColon
  rw [h]

theorem denoteColon_none {l : List Nat} (h : dropThroughColon l = none) :
    denoteColon l = .error .unexpectedEof := by
  unfold denoteColon
  rw [h]

theorem denoteRd_nil {st : St} (hwf : st.wf) (hst : st ≠ .done) :
    denoteRd st [] = .error .unexpectedEof := by
  cases st with
  | findBannerStart => rfl
  | partialBannerMatch m =>
    simp only [St.wf] at hwf
    simp only [denoteRd, List.append_nil]
    rw [denoteBanner_none]
    exact dropBannerSuffix_short (by
      simp only [List.length_take, banner_length]
      omega)
  | findDataStart => rfl
  | readData => rfl
  | done => exact absurd rfl hst

theorem chunkStep_nil (st : St) : chunkStep st [] = (st, []) := by
  rw [chunkStep.eq_def, if_pos rfl]

theorem chunkStep_done {pending : List Nat} (hne : pending ≠ []) :
    chunkStep .done pending = (.done, []) := by
  conv_lhs => rw [chunkStep]
  rw [if_neg hne]

theorem chunkStep_fbs_some {pending : List Nat} {s : Nat}
    (hne : pending ≠ []) (hm : memchr 40 pending = some s) :
    chunkStep .findBannerStart pending =
      chunkStep (.partialBannerMatch 1) (pending.drop (s + 1)) := by
  conv_lhs => rw [chunkStep]
  rw [if_neg hne, hm]

theorem chunkStep_fbs_none {pending : List Nat}
    (hne : pending ≠ []) (hm : memchr 40 pending = none) :
    chunkStep .findBannerStart pending = (.findBannerStart, []) := by
  conv_lhs => rw [chunkStep]
  rw [if_neg hne, hm]

theorem chunkStep_pbm_full {pending : List Nat} {matched : Nat}
    (hne : pending ≠ []) (hg : 40 - matched ≠ 0)
    (hq : pending.take (min pending.length (40 - matched)) =
      (BANNER.drop matched).take (min pending.length (40 - matched)))
    (hs40 : matched + min pending.length (40 - matched) = 40) :
    chunkStep (.partialBannerMatch matched) pending =
      chunkStep .findDataStart (pending.drop (min pending.length (40 - matched))) := by
  conv_lhs => rw [chunkStep]
  rw [if_neg hne, if_neg hg, if_pos hq, if_pos hs40]

theorem chunkStep_pbm_grow {pending : List Nat} {matched : Nat}
    (hne : pending ≠ []) (hg : 40 - matched ≠ 0)
    (hq : pending.take (min pending.length (40 - matched)) =
      (BANNER.drop matched).take (min pending.length (40 - matched)))
    (hs40 : matched + min pending.length (40 - matched) ≠ 40) :
    chunkStep (.partialBannerMatch matched) pending =
      chunkStep (.partialBannerMatch (matched + min pending.length (40 - matched)))
        (pending.drop (min pending.length (40 - matched))) := by
  conv_lhs => rw [chunkStep]
  rw [if_neg hne, if_neg hg, if_pos hq, if_neg hs40]

theorem chunkStep_pbm_mismatch {pending : List Nat} {matched : Nat}
    (hne : pending ≠ []) (hg : 40 - matched ≠ 0)
    (hmm : pending.take (min pending.length (40 - matched)) ≠
      (BANNER.drop matched).take (min pending.length (40 - matched))) :
    chunkStep (.partialBannerMatch matched) pending =
      chunkStep .findBannerStart pending := by
  conv_lhs => rw [chunkStep]
  rw [if_neg hne, if_neg hg, if_neg hmm]

theorem chunkStep_fds_some {pending : List Nat} {p : Nat}
    (hne : pending ≠ []) (hm : memchr 58 pending = some p) :
    chunkStep .findDataStart pending = chunkStep .readData (pending.drop (p + 1)) := by
  conv_lhs => rw [chunkStep]
  rw [if_neg hne, hm]

theorem chunkStep_fds_none {pending : List Nat}
    (hne : pending ≠ []) (hm : memchr 58 pending = none) :
    chunkStep .findDataStart pending = (.findDataStart, []) := by
  conv_lhs => rw [chunkStep]
  rw [if_neg hne, hm]

theorem chunkStep_rd_allws {pending : List Nat}
    (hne : pending ≠ []) (hnd : next_data_byte pending = none) :
    chunkStep .readData pending = (.readData, []) := by
  conv_lhs => rw [chunkStep]
  rw [if_neg hne, hnd]

theorem chunkStep_rd_end {pending : List Nat} {start dataEnd : Nat}
    (hne : pending ≠ []) (hnd : next_data_byte pending = some start)
    (hm : memchr 58 (compact (pending.drop start)) = some dataEnd) :
    chunkStep .readData pending =
      (.done, (compact (pending.drop start)).take dataEnd) := by
  conv_lhs => rw [chunkStep]
  rw [if_neg hne, hnd]
  simp only [hm]

theorem chunkStep_rd_cont {pending : List Nat} {start : Nat}
    (hne : pending ≠ []) (hnd : next_data_byte pending = some start)
    (hm : memchr 58 (compact (pending.drop start)) = none) :
    chunkStep .readData pending = (.readData, compact (pending.drop start)) := by
  conv_lhs => rw [chunkStep]
  rw [if_neg hne, hnd]
  simp only [hm]

/-- The inner loop only creates reachable `PartialBannerMatch` values. -/
theorem chunkStep_wf (st : St) (pending : List Nat) (hwf : st.wf) :
    (chunkStep st pending).1.wf := by
  induction st, pending using chunkStep.induct with
  | case1 st => rw [chunkStep_nil]; exact hwf
  | case2 pending hne => rw [chunkStep_done hne]; trivial
  | case3 pending hne s hm ih =>
    rw [chunkStep_fbs_some hne hm]
    exact ih (show (1 : Nat) ≤ 39 by omega)
  | case4 pending hne hm => rw [chunkStep_fbs_none hne hm]; trivial
  | case5 pending hne matched hg =>
    simp only [St.wf] at hwf
    omega
  | case6 pending hne matched hg hq hs40 ih =>
    rw [chunkStep_pbm_full hne hg hq hs40]
    exact ih trivial
  | case7 pending hne matched hg hq hs40 ih =>
    rw [chunkStep_pbm_grow hne hg hq hs40]
    refine ih ?_
    show matched + min pending.length (40 - matched) ≤ 39
    omega
  | case8 pending hne matched hg hmm ih =>
    rw [chunkStep_pbm_mismatch hne hg hmm]
    exact ih trivial
  | case9 pending hne p hm ih =>
    rw [chunkStep_fds_some hne hm]
    exact ih trivial
  | case10 pending hne hm => rw [chunkStep_fds_none hne hm]; trivial
  | case11 pending hne hnd => rw [chunkStep_rd_allws hne hnd]; trivial
  | case12 pending hne start hnd s hm => rw [chunkStep_rd_end hne hnd hm]; trivial
  | case13 pending hne start hnd hm => rw [chunkStep_rd_cont hne hnd hm]; trivial

theorem memchr_decomp {needle : Nat} {l : List Nat} {i : Nat}
    (h : memchr needle l = some i) : l = l.take i ++ needle :: l.drop (i + 1) := by
  have hlt := memchr_some_lt h
  have hg : l[i] = needle := by
    have hd := memchr_some_getD h
    rwa [List.getD_eq_getElem?_getD, List.getElem?_eq_getElem hlt, Option.getD_some] at hd
  conv_lhs => rw [← List.take_append_drop i l, List.drop_eq_getElem_cons hlt]
  rw [hg]

theorem memchr_some_mem {needle : Nat} {l : List Nat} {i : Nat}
    (h : memchr needle l = some i) : needle ∈ l := by
  rw [memchr_decomp h]
  exact List.mem_append_right _ (List.mem_cons_self ..)

theorem ndb_ws_take {pending : List Nat} {start : Nat}
    (h : next_data_byte pending = some start) :
    ∀ b ∈ pending.take start, isWs b = true := by
  obtain ⟨h1, _, h3⟩ := next_data_byte_some h
  intro x hx
  obtain ⟨j, hj, hbj⟩ := List.mem_take_iff_getElem.mp hx
  have hjb : j < pending.length := by omega
  have hg := h3 j (by omega)
  rw [List.getD_eq_getElem?_getD, List.getElem?_eq_getElem hjb] at hg
  simp only [Option.getD_some] at hg
  rw [← hbj]
  exact hg

theorem filter_ws_take {pending : List Nat} {start : Nat}
    (h : next_data_byte pending = some start) :
    pending.filter (fun b => !isWs b) = (pending.drop start).filter (fun b => !isWs b) := by
  conv_lhs => rw [← List.take_append_drop start pending]
  rw [List.filter_append]
  have hfil : (pending.take start).filter (fun b => !isWs b) = [] := by
    rw [List.filter_eq_nil_iff]
    intro a ha
    simp [ndb_ws_take h a ha]
  rw [hfil, List.nil_append]

theorem denoteBanner_congr {a b : List Nat}
    (h : dropBannerSuffix a = dropBannerSuffix b) : denoteBanner a = denoteBanner b := by
  unfold denoteBanner
  rw [h]

theorem denoteColon_congr {a b : List Nat}
    (h : dropThroughColon a = dropThroughColon b) : denoteColon a = denoteColon b := by
  unfold denoteColon
  rw [h]

/-- One pass of the inner consume loop is faithful to the pure denotation:
processing a chunk emits some output bytes and leaves a state whose meaning,
applied to the bytes still to come, continues the meaning of the pre-chunk
state applied to chunk-plus-rest. -/
theorem chunkStep_denote (st : St) (pending : List Nat) :
    ∀ rest : List Nat, st.wf →
      denoteRd st (pending ++ rest) =
        Except.map (fun o => (chunkStep st pending).2 ++ o)
          (denoteRd (chunkStep st pending).1 rest) := by
  induction st, pending using chunkStep.induct with
  | case1 st =>
    intro rest hwf
    simp only [chunkStep_nil, List.nil_append]
    rw [exMap_id]
  | case2 pending hne =>
    intro rest hwf
    simp only [chunkStep_done hne, denoteRd]
    rw [exMap_nil]
  | case3 pending hne s hm ih =>
    intro rest hwf
    rw [chunkStep_fbs_some hne hm]
    have key : denoteRd .findBannerStart (pending ++ rest) =
        denoteRd (.partialBannerMatch 1) (pending.drop (s + 1) ++ rest) := by
      simp only [denoteRd]
      have ht1 : BANNER.take 1 ++ (pending.drop (s + 1) ++ rest) =
          40 :: (pending.drop (s + 1) ++ rest) := rfl
      rw [ht1]
      apply denoteBanner_congr
      conv_lhs => rw [memchr_decomp hm]
      rw [List.append_assoc, List.cons_append]
      exact dropBannerSuffix_no_paren _ (memchr_some_take hm)
    rw [key]
    exact ih rest (show (1 : Nat) ≤ 39 by omega)
  | case4 pending hne hm =>
    intro rest hwf
    simp only [chunkStep_fbs_none hne hm, denoteRd]
    rw [exMap_nil]
    apply denoteBanner_congr
    exact dropBannerSuffix_no_paren _
      (fun b hb he => memchr_none_not_mem hm (he ▸ hb))
  | case5 pending hne matched hg =>
    intro rest hwf
    simp only [St.wf] at hwf
    omega
  | case6 pending hne matched hg hq hs40 ih =>
    intro rest hwf
    rw [chunkStep_pbm_full hne hg hq hs40]
    have htk : (BANNER.drop matched).take (min pending.length (40 - matched)) =
        BANNER.drop matched := by
      apply List.take_of_length_le
      rw [List.length_drop, banner_length]
      omega
    have hban : BANNER.take matched ++ pending.take (min pending.length (40 - matched)) =
        BANNER := by
      rw [hq, htk, List.take_append_drop]
    have key : BANNER.take matched ++ (pending ++ rest) =
        BANNER ++ (pending.drop (min pending.length (40 - matched)) ++ rest) := by
      conv_lhs => rw [← List.take_append_drop (min pending.length (40 - matched)) pending]
      rw [← List.append_assoc, ← List.append_assoc, hban, List.append_assoc]
    simp only [denoteRd]
    rw [key, denoteBanner_some (dropBannerSuffix_banner _)]
    exact ih rest trivial
  | case7 pending hne matched hg hq hs40 ih =>
    intro rest hwf
    have hclp : min pending.length (40 - matched) = pending.length := by omega
    have hdn : pending.drop (min pending.length (40 - matched)) = [] := by
      rw [hclp]
      exact List.drop_length pending
    have hpe : pending.take (min pending.length (40 - matched)) = pending := by
      rw [hclp]
      exact List.take_length pending
    have hq2 : pending = (BANNER.drop matched).take (min pending.length (40 - matched)) := by
      conv_lhs => rw [← hpe]
      exact hq
    rw [chunkStep_pbm_grow hne hg hq hs40, hdn]
    simp only [chunkStep_nil, denoteRd]
    rw [exMap_nil]
    have key : BANNER.take matched ++ (pending ++ rest) =
        BANNER.take (matched + min pending.length (40 - matched)) ++ rest := by
      rw [List.take_add, List.append_assoc]
      congr 1
      exact congrArg (fun x => x ++ rest) hq2
    rw [key]
  | case8 pending hne matched hg hmm ih =>
    intro rest hwf
    simp only [St.wf] at hwf
    rw [chunkStep_pbm_mismatch hne hg hmm]
    have key := dropBannerSuffix_peel (pending ++ rest) hwf (banner_no_prefix_of_take_ne hmm)
    simp only [denoteRd]
    rw [denoteBanner_congr key]
    exact ih rest trivial
  | case9 pending hne p hm ih =>
    intro rest hwf
    rw [chunkStep_fds_some hne hm]
    have key : denoteRd .findDataStart (pending ++ rest) =
        denoteRd .readData (pending.drop (p + 1) ++ rest) := by
      simp only [denoteRd]
      have hdec : pending ++ rest =
          pending.take p ++ (58 :: (pending.drop (p + 1) ++ rest)) := by
        conv_lhs => rw [memchr_decomp hm]
        rw [List.append_assoc, List.cons_append]
      rw [hdec, denoteColon_some (dropThroughColon_colon _ (memchr_some_take hm))]
    rw [key]
    exact ih rest trivial
  | case10 pending hne hm =>
    intro rest hwf
    simp only [chunkStep_fds_none hne hm, denoteRd]
    rw [exMap_nil]
    apply denoteColon_congr
    exact dropThroughColon_no_colon _
      (fun b hb he => memchr_none_not_mem hm (he ▸ hb))
  | case11 pending hne hnd =>
    intro rest hwf
    have hall := next_data_byte_none hnd
    have h58 : 58 ∉ pending := by
      intro hmem
      have hk := hall 58 hmem
      rw [isWs_58] at hk
      cases hk
    have hfil : pending.filter (fun b => !isWs b) = [] := by
      rw [List.filter_eq_nil_iff]
      intro a ha
      simp [hall a ha]
    simp only [chunkStep_rd_allws hne hnd, denoteRd]
    rw [stripData_no_colon rest h58]
    simp only [hfil]
  | case12 pending hne start hnd dataEnd hm =>
    intro rest hwf
    have h58p : 58 ∈ pending := by
      have h58F := memchr_some_mem hm
      rw [compact_eq_filter] at h58F
      exact List.mem_of_mem_drop (List.mem_of_mem_filter h58F)
    have h58pr : 58 ∈ pending ++ rest := List.mem_append_left _ h58p
    have hside : ∀ b : Nat, (fun b => !isWs b) b = false → (fun b => !(b == 58)) b = true := by
      intro b hb
      simp only [Bool.not_eq_false'] at hb
      simp only [isWs, Bool.or_eq_true, beq_iff_eq] at hb
      simp only [Bool.not_eq_true', beq_eq_false_iff_ne]
      omega
    have h58A : ∀ b ∈ (compact (pending.drop start)).take dataEnd, b ≠ 58 :=
      memchr_some_take hm
    simp only [chunkStep_rd_end hne hnd hm, denoteRd]
    simp only [exMap_ok, List.append_nil]
    unfold stripData
    rw [if_pos h58pr]
    rw [filter_takeWhile_comm hside (pending ++ rest)]
    rw [List.filter_append, filter_ws_take hnd, ← compact_eq_filter]
    conv_lhs => rw [memchr_decomp hm]
    rw [List.append_assoc, List.cons_append]
    rw [takeWhile_append_all _ (fun b hb => by
      have hbne := h58A b hb
      simp [hbne])]
    rw [takeWhile_cons_neg _ (by simp)]
    rw [List.append_nil]
  | case13 pending hne start hnd hm =>
    intro rest hwf
    have h58F : 58 ∉ compact (pending.drop start) := memchr_none_not_mem hm
    rw [compact_eq_filter] at h58F
    have h58 : 58 ∉ pending := by
      intro hmem
      have hmem2 : 58 ∈ pending.take start ++ pending.drop start := by
        rw [List.take_append_drop]
        exact hmem
      rcases List.mem_append.mp hmem2 with hx | hx
      · have hk := ndb_ws_take hnd 58 hx
        rw [isWs_58] at hk
        cases hk
      · refine h58F (List.mem_filter.mpr ⟨hx, ?_⟩)
        rw [isWs_58]
        rfl
    simp only [chunkStep_rd_cont hne hnd hm, denoteRd]
    rw [stripData_no_colon rest h58]
    simp only [compact_eq_filter, ← filter_ws_take hnd]

/-- `read` is faithful to the denotation: an error is `UnexpectedEof` and
matches the denotation; a success preserves well-formedness, splits the
denotation into the copied bytes plus the new state's meaning, and copies
zero bytes only once `Done` is reached. -/
theorem ebr_read_spec (sch : Nat → Nat) (i : Nat) (st : St) (src : List Nat) (cap : Nat) :
    st.wf → 1 ≤ cap →
      (∀ e, read sch i st src cap = .error e →
        e = .unexpectedEof ∧ denoteRd st src = .error .unexpectedEof) ∧
      (∀ out st2 src2 i2, read sch i st src cap = .ok (out, st2, src2, i2) →
        st2.wf ∧
        denoteRd st src = Except.map (fun o => out ++ o) (denoteRd st2 src2) ∧
        (out = [] → st2 = .done)) := by
  induction i, st, src, cap using read.induct sch with
  | case1 i st src =>
    intro hwf hcap
    exact absurd hcap (by omega)
  | case2 i src cap hcap0 =>
    intro hwf hcap
    constructor
    · intro e he
      rw [read, if_neg hcap0, if_pos rfl] at he
      cases he
    · intro out st2 src2 i2 h
      rw [read, if_neg hcap0, if_pos rfl] at h
      injection h with h
      injection h with h1 h
      injection h with h2 h
      injection h with h3 h4
      subst h1
      subst h2
      subst h3
      refine ⟨trivial, ?_, fun _ => rfl⟩
      simp only [denoteRd]
      rw [exMap_nil]
  | case3 i st cap hcap0 hdone =>
    intro hwf hcap
    constructor
    · intro e he
      rw [read, if_neg hcap0, if_neg hdone, if_pos rfl] at he
      injection he with he
      subst he
      exact ⟨rfl, denoteRd_nil hwf hdone⟩
    · intro out st2 src2 i2 h
      rw [read, if_neg hcap0, if_neg hdone, if_pos rfl] at h
      cases h
  | case4 i st src cap hcap0 hdone hnil hloop ih =>
    intro hwf hcap
    have hwf2 : (chunkStep st (src.take (max 1 (min (sch i) (min cap src.length))))).1.wf :=
      chunkStep_wf st _ hwf
    have hkey : denoteRd st src =
        denoteRd (chunkStep st (src.take (max 1 (min (sch i) (min cap src.length))))).1
          (src.drop (max 1 (min (sch i) (min cap src.length)))) := by
      conv_lhs =>
        rw [← List.take_append_drop (max 1 (min (sch i) (min cap src.length))) src]
      rw [chunkStep_denote st _ _ hwf]
      simp only [hloop.1]
      rw [exMap_nil]
    obtain ⟨ihE, ihO⟩ := ih hwf2 hcap
    constructor
    · intro e he
      rw [read, if_neg hcap0, if_neg hdone, if_neg hnil, if_pos hloop] at he
      obtain ⟨he1, he2⟩ := ihE e he
      exact ⟨he1, by rw [hkey]; exact he2⟩
    · intro out st2 src2 i2 h
      rw [read, if_neg hcap0, if_neg hdone, if_neg hnil, if_pos hloop] at h
      obtain ⟨hw, hden, hdone2⟩ := ihO out st2 src2 i2 h
      exact ⟨hw, by rw [hkey]; exact hden, hdone2⟩
  | case5 i st src cap hcap0 hdone hnil hnot =>
    intro hwf hcap
    constructor
    · intro e he
      rw [read, if_neg hcap0, if_neg hdone, if_neg hnil, if_neg hnot] at he
      cases he
    · intro out st2 src2 i2 h
      rw [read, if_neg hcap0, if_neg hdone, if_neg hnil, if_neg hnot] at h
      injection h with h
      injection h with h1 h
      injection h with h2 h
      injection h with h3 h4
      subst h1
      subst h2
      subst h3
      refine ⟨chunkStep_wf st _ hwf, ?_, ?_⟩
      · conv_lhs =>
          rw [← List.take_append_drop (max 1 (min (sch i) (min cap src.length))) src]
        exact chunkStep_denote st _ _ hwf
      · intro hout
        by_contra hnd
        exact hnot ⟨hout, hnd⟩

theorem ebr_readToEnd_eq_err {dsch sch : Nat → Nat} {j i : Nat} {st : St}
    {src acc : List Nat} {e : IOErrorKind}
    (h : read sch i st src (max 1 (dsch j)) = .error e) :
    readToEnd dsch sch j i st src acc = .error e := by
  rw [readToEnd]
  split
  · rename_i e2 h2
    rw [h] at h2
    injection h2 with h2
    rw [h2]
  · rename_i out st2 src2 i2 h2
    rw [h] at h2
    cases h2

theorem ebr_readToEnd_eq_ok {dsch sch : Nat → Nat} {j i : Nat} {st : St}
    {src acc out : List Nat} {st2 : St} {src2 : List Nat} {i2 : Nat}
    (h : read sch i st src (max 1 (dsch j)) = .ok (out, st2, src2, i2)) :
    readToEnd dsch sch j i st src acc =
      if out = [] then .ok acc
      else readToEnd dsch sch (j + 1) i2 st2 src2 (acc ++ out) := by
  rw [readToEnd]
  split
  · rename_i e2 h2
    rw [h] at h2
    cases h2
  · rename_i out2 st22 src22 i22 h2
    rw [h] at h2
    injection h2 with h2
    injection h2 with h21 h2
    injection h2 with h22 h2
    injection h2 with h23 h24
    subst h21
    subst h22
    subst h23
    subst h24
    rfl

/-- Driving `read` to the end produces exactly the denotation of the
initial state — for every read-size schedule and every destination-buffer
schedule. -/
theorem ebr_readToEnd_denote (dsch sch : Nat → Nat) :
    ∀ (j i : Nat) (st : St) (src acc : List Nat), st.wf →
      readToEnd dsch sch j i st src acc =
        Except.map (fun o => acc ++ o) (denoteRd st src) := by
  intro j i st src acc
  induction j, i, st, src, acc using readToEnd.induct dsch sch with
  | case1 j i st src acc e h =>
    intro hwf
    rw [ebr_readToEnd_eq_err h]
    obtain ⟨he1, he2⟩ := (ebr_read_spec sch i st src (max 1 (dsch j)) hwf (by omega)).1 e h
    rw [he2, exMap_err, he1]
  | case2 j i st src acc st2 src2 i2 h =>
    intro hwf
    rw [ebr_readToEnd_eq_ok h, if_pos rfl]
    obtain ⟨hw2, hden, hdone⟩ :=
      (ebr_read_spec sch i st src (max 1 (dsch j)) hwf (by omega)).2 [] st2 src2 i2 h
    have hst2 : st2 = .done := hdone rfl
    subst hst2
    rw [hden]
    simp only [denoteRd]
    rw [exMap_nil, exMap_ok, List.append_nil]
  | case3 j i st src acc out st2 src2 i2 h hne ih =>
    intro hwf
    rw [ebr_readToEnd_eq_ok h, if_neg hne]
    obtain ⟨hw2, hden, _⟩ :=
      (ebr_read_spec sch i st src (max 1 (dsch j)) hwf (by omega)).2 out st2 src2 i2 h
    rw [ih hw2, hden, exMap_append]

/-- `EncodedBinHexReader` computes `stripPure`, regardless of chunking. -/
theorem readAll_denote (dsch sch : Nat → Nat) (src : List Nat) :
    readAll dsch sch src = stripPure src := by
  unfold readAll
  rw [ebr_readToEnd_denote dsch sch 0 0 .findBannerStart src [] trivial]
  simp only [denoteRd]
  rw [exMap_nil]
  rfl

/-- Prepending bytes that start no banner occurrence leaves the banner
search unchanged. -/
theorem dropBannerSuffix_pre {pre : List Nat} (input : List Nat)
    (hpre : ∀ j, j < pre.length → ¬(BANNER.isPrefixOf (pre.drop j ++ input) = true)) :
    dropBannerSuffix (pre ++ input) = dropBannerSuffix input := by
  induction pre with
  | nil => simp
  | cons b t ih =>
    rw [List.cons_append, dropBannerSuffix_cons]
    have h0 := hpre 0 (by simp)
    simp only [List.drop_zero, List.cons_append] at h0
    rw [if_neg h0]
    refine ih ?_
    intro j hj
    have hj1 := hpre (j + 1) (by simp only [List.length_cons]; omega)
    rw [List.drop_succ_cons] at hj1
    exact hj1

/-- `stripPure` ignores any preamble in which no banner occurrence starts. -/
theorem stripPure_pre {pre : List Nat} (input : List Nat)
    (hpre : ∀ j, j < pre.length → ¬(BANNER.isPrefixOf (pre.drop j ++ input) = true)) :
    stripPure (pre ++ input) = stripPure input :=
  denoteBanner_congr (dropBannerSuffix_pre input hpre)

end BinRead

/-! ## Fork extraction (`src/binhex/archive.rs`)

`BinHexArchive::extract` and `copy_fork` operate on the output of the
expander.  The models below take that expanded byte stream as a list; the
sizes of individual `Read::read` calls against it are again picked by a
clipped schedule, so quantifying over schedules covers every chunking the
upstream pipeline can produce.  Error propagation through `?` applies
`From<io::Error> for BinHexError`.
-/

namespace Archive

/-- `Read::read_exact`: read until `n` bytes are obtained; `UnexpectedEof`
when the source ends first.  Returns the bytes, the remaining source and
the next schedule index. -/
def readExact (sch : Nat → Nat) (i : Nat) (src : List Nat) (n : Nat) :
    Except IOErrorKind (List Nat × List Nat × Nat) :=
  if n = 0 then .ok ([], src, i)
  else if src = [] then .error .unexpectedEof
  else
    match readExact sch (i + 1) (src.drop (max 1 (min (sch i) (min n src.length))))
        (n - max 1 (min (sch i) (min n src.length))) with
    | .error e => .error e
    | .ok (bytes, src', i') =>
        .ok (src.take (max 1 (min (sch i) (min n src.length))) ++ bytes, src', i')
termination_by n
decreasing_by
  rename_i hn _
  omega

theorem readExact_ok (sch : Nat → Nat) {src : List Nat} {n : Nat} (i : Nat)
    (h : n ≤ src.length) :
    ∃ i', readExact sch i src n = .ok (src.take n, src.drop n, i') := by
  induction i, src, n using readExact.induct sch with
  | case1 i src =>
    refine ⟨i, ?_⟩
    rw [readExact]
    simp
  | case2 i n hn =>
    simp at h
    omega
  | case3 i src n hn hsrc e hrec ih =>
    have hsl : 1 ≤ src.length := List.length_pos.mpr hsrc
    have hrest : n - max 1 (min (sch i) (min n src.length)) ≤
        (src.drop (max 1 (min (sch i) (min n src.length)))).length := by
      rw [List.length_drop]
      omega
    obtain ⟨i', hi'⟩ := ih hrest
    rw [hi'] at hrec
    cases hrec
  | case4 i src n hn hsrc bytes src' i' hrec ih =>
    have hsl : 1 ≤ src.length := List.length_pos.mpr hsrc
    have hk1 : 1 ≤ max 1 (min (sch i) (min n src.length)) := le_max_left _ _
    have hkn : max 1 (min (sch i) (min n src.length)) ≤ n := by omega
    have hrest : n - max 1 (min (sch i) (min n src.length)) ≤
        (src.drop (max 1 (min (sch i) (min n src.length)))).length := by
      rw [List.length_drop]
      omega
    obtain ⟨i'', hi''⟩ := ih hrest
    rw [hi''] at hrec
    cases hrec
    refine ⟨i', ?_⟩
    rw [readExact]
    simp only [if_neg hn, if_neg hsrc, hi'']
    have h1 : src.take (max 1 (min (sch i) (min n src.length))) ++
        (src.drop (max 1 (min (sch i) (min n src.length)))).take
          (n - max 1 (min (sch i) (min n src.length))) = src.take n := by
      rw [← List.take_add]
      congr 1
      omega
    have h2 : (src.drop (max 1 (min (sch i) (min n src.length)))).drop
        (n - max 1 (min (sch i) (min n src.length))) = src.drop n := by
      rw [List.drop_drop]
      congr 1
      omega
    rw [h1, h2]

theorem readExact_err (sch : Nat → Nat) {src : List Nat} {n : Nat} (i : Nat)
    (h : src.length < n) :
    readExact sch i src n = .error .unexpectedEof := by
  induction i, src, n using readExact.induct sch with
  | case1 i src => simp at h
  | case2 i n hn =>
    rw [readExact]
    simp only [if_neg hn]
    simp
  | case3 i src n hn hsrc e hrec ih =>
    rw [readExact]
    simp only [if_neg hn, if_neg hsrc, hrec]
    have hsl : 1 ≤ src.length := List.length_pos.mpr hsrc
    have := ih (by rw [List.length_drop]; omega)
    rw [this] at hrec
    cases hrec
    rfl
  | case4 i src n hn hsrc bytes src' i' hrec ih =>
    have hsl : 1 ≤ src.length := List.length_pos.mpr hsrc
    have := ih (by rw [List.length_drop]; omega)
    rw [this] at hrec
    cases hrec

end Archive

namespace Archive

/-- `ForkReader::read` (archive.rs lines 404-424): bounded read with CRC
accounting left to the caller (`io::copy` model below).  Returns the chunk
delivered into `buf`, the remaining source and the next schedule index. -/
def forkRead (sch : Nat → Nat) (i : Nat) (src : List Nat)
    (len bytesRead bufLen : Nat) : Except IOErrorKind (List Nat × List Nat × Nat) :=
  if bufLen = 0 ∨ bytesRead = len then .ok ([], src, i)
  else if bufLen ≤ len - bytesRead then
    -- plain `source.read(buf)`
    if src = [] then .ok ([], src, i + 1)
    else .ok (src.take (max 1 (min (sch i) (min bufLen src.length))),
              src.drop (max 1 (min (sch i) (min bufLen src.length))), i + 1)
  else
    match readExact sch i src (len - bytesRead) with
    | .error e => .error e
    | .ok (bytes, src', i') => .ok (bytes, src', i')

/-- A nonempty chunk strictly advances the copy towards `len`. -/
theorem forkRead_ok_len {sch : Nat → Nat} {i : Nat} {src : List Nat}
    {len bytesRead bufLen : Nat} {chunk src' : List Nat} {i' : Nat}
    (h : forkRead sch i src len bytesRead bufLen = .ok (chunk, src', i'))
    (hne : chunk ≠ []) : bytesRead < len ∧ bytesRead + chunk.length ≤ len := by
  rw [forkRead] at h
  split at h
  · cases h
    simp at hne
  · rename_i hcond
    push_neg at hcond
    split at h
    · rename_i hble
      split at h
      · cases h
        simp at hne
      · cases h
        rename_i hsrc
        have hsl : 1 ≤ src.length := List.length_pos.mpr hsrc
        constructor
        · omega
        · rw [List.length_take]
          omega
    · rename_i hbgt
      split at h
      · cases h
      · rename_i bytes src'' i'' hrec
        cases h
        by_cases hle : len - bytesRead ≤ src.length
        · obtain ⟨j, hj⟩ := readExact_ok sch i hle
          rw [hj] at hrec
          cases hrec
          have hpos : 0 < (src.take (len - bytesRead)).length :=
            List.length_pos.mpr hne
          rw [List.length_take] at hpos ⊢
          omega
        · rw [readExact_err sch i (by omega)] at hrec
          cases hrec

end Archive

namespace Archive

/-- `io::copy(&mut fork_reader, dest)` together with the CRC accumulation
inside `ForkReader::read`: repeatedly read a chunk of at most `bufLen` bytes
and append it to `dest`, updating the CRC, until a zero-length read.
Returns the destination contents, the remaining source, the next schedule
index and the CRC register. -/
def ioCopy (sch : Nat → Nat) (i : Nat) (src : List Nat) (len bytesRead : Nat)
    (crc : Nat) (bufLen : Nat) (dest : List Nat) :
    Except IOErrorKind (List Nat × List Nat × Nat × Nat) :=
  match h : forkRead sch i src len bytesRead bufLen with
  | .error e => .error e
  | .ok (chunk, src', i') =>
    if chunk = [] then .ok (dest, src', i', crc)
    else ioCopy sch i' src' len (bytesRead + chunk.length) (crcRun crc chunk)
           bufLen (dest ++ chunk)
termination_by len - bytesRead
decreasing_by
  rename_i hne
  obtain ⟨h1, h2⟩ := forkRead_ok_len h hne
  have h3 : 0 < chunk.length := List.length_pos.mpr hne
  omega

theorem ioCopy_eq_err {sch : Nat → Nat} {i : Nat} {src : List Nat}
    {len bytesRead crc bufLen : Nat} {dest : List Nat} {e : IOErrorKind}
    (h : forkRead sch i src len bytesRead bufLen = .error e) :
    ioCopy sch i src len bytesRead crc bufLen dest = .error e := by
  rw [ioCopy]
  split
  · rename_i e' h'
    rw [h] at h'
    cases h'
    rfl
  · rename_i chunk src' i' h'
    rw [h] at h'
    cases h'

theorem ioCopy_eq_ok {sch : Nat → Nat} {i : Nat} {src : List Nat}
    {len bytesRead crc bufLen : Nat} {dest chunk src' : List Nat} {i' : Nat}
    (h : forkRead sch i src len bytesRead bufLen = .ok (chunk, src', i')) :
    ioCopy sch i src len bytesRead crc bufLen dest =
      if chunk = [] then .ok (dest, src', i', crc)
      else ioCopy sch i' src' len (bytesRead + chunk.length) (crcRun crc chunk)
             bufLen (dest ++ chunk) := by
  rw [ioCopy]
  split
  · rename_i e' h'
    rw [h] at h'
    cases h'
  · rename_i chunk2 src2 i2 h'
    rw [h] at h'
    cases h'
    rfl

/-- When the source holds at least the rest of the fork, `io::copy` delivers
exactly those bytes, accumulates their CRC, and consumes exactly them. -/
theorem ioCopy_spec (sch : Nat → Nat) (i : Nat) (src : List Nat)
    (len bytesRead crc bufLen : Nat) (dest : List Nat) :
    bytesRead ≤ len → len - bytesRead ≤ src.length → 1 ≤ bufLen →
    ∃ i', ioCopy sch i src len bytesRead crc bufLen dest =
      .ok (dest ++ src.take (len - bytesRead), src.drop (len - bytesRead), i',
           crcRun crc (src.take (len - bytesRead))) := by
  induction i, src, len, bytesRead, crc, bufLen, dest using ioCopy.induct sch with
  | case1 i src len bytesRead crc bufLen dest e h =>
    intro hble hsuf hbuf
    exfalso
    rw [forkRead] at h
    split at h
    · cases h
    · split at h
      · split at h
        · cases h
        · cases h
      · rename_i hcond hbgt
        push_neg at hcond
        obtain ⟨j, hj⟩ := readExact_ok sch i hsuf
        rw [hj] at h
        cases h
  | case2 i src len bytesRead crc bufLen dest src' i' h =>
    intro hble hsuf hbuf
    rw [ioCopy_eq_ok h, if_pos rfl]
    have hkey : bytesRead = len ∧ src' = src := by
      rw [forkRead] at h
      split at h
      · rename_i hcond
        simp only [Except.ok.injEq, Prod.mk.injEq] at h
        rcases hcond with hc | hc
        · omega
        · exact ⟨hc, h.2.1.symm⟩
      · rename_i hcond
        push_neg at hcond
        split at h
        · split at h
          · rename_i hsrc
            simp only [Except.ok.injEq, Prod.mk.injEq] at h
            subst hsrc
            simp at hsuf
            omega
          · rename_i hsrc
            exfalso
            simp only [Except.ok.injEq, Prod.mk.injEq] at h
            have hsl : 1 ≤ src.length := List.length_pos.mpr hsrc
            have hth := congrArg List.length h.1
            rw [List.length_take, List.length_nil] at hth
            omega
        · rename_i hbgt
          obtain ⟨j, hj⟩ := readExact_ok sch i hsuf
          rw [hj] at h
          simp only [Except.ok.injEq, Prod.mk.injEq] at h
          have hth := congrArg List.length h.1
          rw [List.length_take, List.length_nil] at hth
          have hbl : bytesRead = len := by omega
          refine ⟨hbl, ?_⟩
          rw [← h.2.1]
          rw [show len - bytesRead = 0 by omega]
          simp
    obtain ⟨hbr, hsrc'⟩ := hkey
    refine ⟨i', ?_⟩
    rw [hbr, hsrc']
    simp [crcRun]
  | case3 i src len bytesRead crc bufLen dest chunk src' i' h hne ih =>
    intro hble hsuf hbuf
    rw [ioCopy_eq_ok h, if_neg hne]
    obtain ⟨hlt, hle2⟩ := forkRead_ok_len h hne
    -- identify the chunk as a prefix of the source
    have hchunk : chunk = src.take chunk.length ∧ src' = src.drop chunk.length := by
      rw [forkRead] at h
      split at h
      · cases h
        simp at hne
      · split at h
        · split at h
          · cases h
            simp at hne
          · cases h
            rw [List.length_take]
            constructor
            · congr 1
              omega
            · congr 1
              omega
        · obtain ⟨j, hj⟩ := readExact_ok sch i hsuf
          rw [hj] at h
          cases h
          rw [List.length_take]
          constructor
          · congr 1
            omega
          · congr 1
            omega
    obtain ⟨hc1, hc2⟩ := hchunk
    have hsuf' : len - (bytesRead + chunk.length) ≤ src'.length := by
      rw [hc2, List.length_drop]
      omega
    obtain ⟨i'', hi''⟩ := ih (by omega) hsuf' hbuf
    refine ⟨i'', ?_⟩
    rw [hi'']
    have hdrop : src'.take (len - (bytesRead + chunk.length)) =
        (src.drop chunk.length).take (len - bytesRead - chunk.length) := by
      rw [hc2]
      congr 1
      omega
    have htake : chunk ++ (src.drop chunk.length).take (len - bytesRead - chunk.length) =
        src.take (len - bytesRead) := by
      conv_rhs => rw [show len - bytesRead = chunk.length + (len - bytesRead - chunk.length) by omega]
      rw [List.take_add, ← hc1]
    have e1 : dest ++ chunk ++ src'.take (len - (bytesRead + chunk.length)) =
        dest ++ src.take (len - bytesRead) := by
      rw [hdrop, List.append_assoc, htake]
    have e2 : src'.drop (len - (bytesRead + chunk.length)) =
        src.drop (len - bytesRead) := by
      rw [hc2, List.drop_drop]
      congr 1
      omega
    have e3 : crcRun (crcRun crc chunk) (src'.take (len - (bytesRead + chunk.length))) =
        crcRun crc (src.take (len - bytesRead)) := by
      rw [hdrop, ← crcRun_append, htake]
    rw [e1, e2, e3]

end Archive

/-- `u16::from_be_bytes` on a two-byte slice. -/
def be16 (l : List Nat) : Nat := l.getD 0 0 * 256 + l.getD 1 0

namespace Archive

/-- `BinHexArchive::copy_fork` (archive.rs lines 225-254): copy `len` bytes
through a `ForkReader` into `dest` (accumulating the CRC), then read the
two-byte trailing checksum and compare.  Returns the bytes written to the
destination sink alongside the result; on success the remaining source and
next schedule index.  The model tracks the sink contents up to the point an
io error aborts the copy loop only as far as the claims need them: every
checksum comparison happens after a complete copy. -/
def copyFork (sch : Nat → Nat) (i : Nat) (src : List Nat)
    (sec : ChecksumSection) (len bufLen : Nat) :
    List Nat × Except BinHexError (List Nat × Nat) :=
  match ioCopy sch i src len 0 0 bufLen [] with
  | .error e => ([], .error (binHexErrorOfIo e))
  | .ok (dest, src', i', crc) =>
    match readExact sch i' src' 2 with
    | .error e => (dest, .error (binHexErrorOfIo e))
    | .ok (checksumBytes, src'', i'') =>
      if be16 checksumBytes = crc then (dest, .ok (src'', i''))
      else (dest, .error (.invalidChecksum sec (be16 checksumBytes) crc))

/-- `BinHexArchive::extract` (archive.rs lines 196-212): copy the data fork
into the first sink, then the resource fork into the second.  Returns both
sink contents and the overall result. -/
def extract (sch : Nat → Nat) (i : Nat) (src : List Nat)
    (dataForkLength resourceForkLength bufLen : Nat) :
    List Nat × List Nat × Except BinHexError Unit :=
  match copyFork sch i src .dataFork dataForkLength bufLen with
  | (dataSink, .error e) => (dataSink, [], .error e)
  | (dataSink, .ok (src', i')) =>
    match copyFork sch i' src' .resourceFork resourceForkLength bufLen with
    | (rsrcSink, .error e) => (dataSink, rsrcSink, .error e)
    | (rsrcSink, .ok _) => (dataSink, rsrcSink, .ok ())

/-- `copy_fork` on a source that starts with a complete fork and its
trailing checksum: the whole fork is written to the sink, and the result is
decided by the checksum comparison. -/
theorem copyFork_spec (sch : Nat → Nat) (i : Nat) (fork cs rest : List Nat)
    (sec : ChecksumSection) (len bufLen : Nat)
    (hlen : fork.length = len) (hcs : cs.length = 2) (hbuf : 1 ≤ bufLen) :
    ∃ i', copyFork sch i (fork ++ cs ++ rest) sec len bufLen =
      (fork, if be16 cs = crc16 fork then .ok (rest, i')
             else .error (.invalidChecksum sec (be16 cs) (crc16 fork))) := by
  have hsuf : len - 0 ≤ (fork ++ cs ++ rest).length := by
    rw [List.length_append, List.length_append]
    omega
  obtain ⟨i', hcopy⟩ := ioCopy_spec sch i (fork ++ cs ++ rest) len 0 0 bufLen []
    (by omega) hsuf hbuf
  have htake : (fork ++ cs ++ rest).take (len - 0) = fork := by
    rw [List.append_assoc, Nat.sub_zero, ← hlen, List.take_left]
  have hdrop : (fork ++ cs ++ rest).drop (len - 0) = cs ++ rest := by
    rw [List.append_assoc, Nat.sub_zero, ← hlen, List.drop_left]
  rw [htake, hdrop] at hcopy
  have hcs2 : 2 ≤ (cs ++ rest).length := by
    rw [List.length_append]
    omega
  obtain ⟨i'', hexact⟩ := readExact_ok sch i' hcs2
  have htake2 : (cs ++ rest).take 2 = cs := by
    rw [← hcs, List.take_left]
  have hdrop2 : (cs ++ rest).drop 2 = rest := by
    rw [← hcs, List.drop_left]
  rw [htake2, hdrop2] at hexact
  refine ⟨i'', ?_⟩
  simp only [copyFork, hcopy, List.nil_append, hexact, crc16]
  split <;> rfl

end Archive

namespace Archive

/-- `extract` on a stream laid out as `data fork · data crc · resource fork
· resource crc`: both forks are written to their sinks in order, and the
result is decided by the two checksum comparisons (data fork first). -/
theorem extract_spec (sch : Nat → Nat) (i : Nat) (d cd r cr : List Nat)
    (bufLen : Nat) (hcd : cd.length = 2) (hcr : cr.length = 2)
    (hbuf : 1 ≤ bufLen) :
    extract sch i (d ++ cd ++ r ++ cr) d.length r.length bufLen =
      if be16 cd = crc16 d then
        if be16 cr = crc16 r then (d, r, .ok ())
        else (d, r, .error (.invalidChecksum .resourceFork (be16 cr) (crc16 r)))
      else (d, [], .error (.invalidChecksum .dataFork (be16 cd) (crc16 d))) := by
  rw [List.append_assoc (d ++ cd) r cr]
  obtain ⟨i1, hcf1⟩ :=
    copyFork_spec sch i d cd (r ++ cr) .dataFork d.length bufLen rfl hcd hbuf
  by_cases hvd : be16 cd = crc16 d
  · rw [if_pos hvd] at hcf1
    obtain ⟨i2, hcf2⟩ :=
      copyFork_spec sch i1 r cr [] .resourceFork r.length bufLen rfl hcr hbuf
    have hcf2' : copyFork sch i1 (r ++ cr) .resourceFork r.length bufLen =
        (r, if be16 cr = crc16 r then .ok ([], i2)
            else .error (.invalidChecksum .resourceFork (be16 cr) (crc16 r))) := by
      have hrw : (r ++ cr : List Nat) = r ++ cr ++ [] := by simp
      rw [hrw]
      exact hcf2
    rw [if_pos hvd]
    by_cases hvr : be16 cr = crc16 r
    · rw [if_pos hvr] at hcf2' ⊢
      unfold extract
      split
      · rename_i dataSink e heq
        rw [hcf1] at heq
        cases heq
      · rename_i dataSink src' i' heq
        rw [hcf1] at heq
        cases heq
        split
        · rename_i rsink e heq2
          rw [hcf2'] at heq2
          cases heq2
        · rename_i rsink a heq2
          rw [hcf2'] at heq2
          cases heq2
          rfl
    · rw [if_neg hvr] at hcf2' ⊢
      unfold extract
      split
      · rename_i dataSink e heq
        rw [hcf1] at heq
        cases heq
      · rename_i dataSink src' i' heq
        rw [hcf1] at heq
        cases heq
        split
        · rename_i rsink e heq2
          rw [hcf2'] at heq2
          cases heq2
          rfl
        · rename_i rsink a heq2
          rw [hcf2'] at heq2
          cases heq2
  · rw [if_neg hvd] at hcf1 ⊢
    unfold extract
    split
    · rename_i dataSink e heq
      rw [hcf1] at heq
      cases heq
      rfl
    · rename_i dataSink src' i' heq
      rw [hcf1] at heq
      cases heq

end Archive

/-- `u32::from_be_bytes` on a four-byte slice (`as usize`). -/
def be32 (l : List Nat) : Nat :=
  l.getD 0 0 * 16777216 + l.getD 1 0 * 65536 + l.getD 2 0 * 256 + l.getD 3 0

/-- `BinHexHeader` (archive.rs lines 316-324).  The `name` field is kept as
the raw Macintosh-Roman bytes; the crate transcodes them to a `String`,
which none of the claims depend on. -/
structure BinHexHeader where
  name : List Nat
  fileType : List Nat
  creator : List Nat
  flag : Nat
  dataForkLength : Nat
  resourceForkLength : Nat
  deriving DecidableEq, Repr

/-- `impl TryFrom<Vec<u8>> for BinHexHeader` (archive.rs lines 326-379):
validate the record length, check the CRC16/XMODEM of every byte except the
trailing two against the stored big-endian checksum, then split the fields.
(The real code can only be reached with at least 22 bytes — `new` always
passes `22 + name_len` — so the `split_at` calls cannot panic.) -/
def binHexHeaderTryFrom (headerBytes : List Nat) : Except BinHexError BinHexHeader :=
  if headerBytes.length ≠ headerBytes.getD 0 0 + 22 then .error .invalidHeader
  else
    if be16 (headerBytes.drop (headerBytes.length - 2)) ≠
        crc16 (headerBytes.take (headerBytes.length - 2)) then
      .error (.invalidChecksum .header
        (be16 (headerBytes.drop (headerBytes.length - 2)))
        (crc16 (headerBytes.take (headerBytes.length - 2))))
    else
      .ok { name := (headerBytes.drop 1).take (headerBytes.getD 0 0)
            fileType := (headerBytes.drop (2 + headerBytes.getD 0 0)).take 4
            creator := (headerBytes.drop (6 + headerBytes.getD 0 0)).take 4
            flag := be16 ((headerBytes.drop (10 + headerBytes.getD 0 0)).take 2)
            dataForkLength := be32 ((headerBytes.drop (12 + headerBytes.getD 0 0)).take 4)
            resourceForkLength := be32 ((headerBytes.drop (16 + headerBytes.getD 0 0)).take 4) }

/-- `BinHexArchive::filename` (a borrow of the cached header field — no
stream access). -/
def filename (header : BinHexHeader) : List Nat := header.name

/-- `BinHexArchive::file_type`. -/
def file_type (header : BinHexHeader) : List Nat := header.fileType

/-- `BinHexArchive::creator`. -/
def creator (header : BinHexHeader) : List Nat := header.creator

/-- `BinHexArchive::flags`. -/
def flags (header : BinHexHeader) : Nat := header.flag

/-- `BinHexArchive::data_fork_len`. -/
def data_fork_len (header : BinHexHeader) : Nat := header.dataForkLength

/-- `BinHexArchive::resource_fork_len`. -/
def resource_fork_len (header : BinHexHeader) : Nat := header.resourceForkLength

/-- `BinHexArchive::new` (archive.rs lines 39-65), modelled over the
expanded byte stream the expander delivers: `read_exact` 22 bytes, read the
name length from the first byte, `read_exact` `name_len` more bytes, and
parse the record.  Construction eagerly consumes and parses the header and
stores it in the archive; on any failure no archive (and no header) is
produced. -/
def binHexArchiveNew (sch : Nat → Nat) (i : Nat) (src : List Nat) :
    Except BinHexError (BinHexHeader × List Nat × Nat) :=
  match Archive.readExact sch i src 22 with
  | .error e => .error (binHexErrorOfIo e)
  | .ok (first22, src', i') =>
    match Archive.readExact sch i' src' (first22.getD 0 0) with
    | .error e => .error (binHexErrorOfIo e)
    | .ok (nameBytes, src'', i'') =>
      match binHexHeaderTryFrom (first22 ++ nameBytes) with
      | .error e => .error e
      | .ok header => .ok (header, src'', i'')

/-- `BinHexArchive::new` consumes exactly the `name_len + 22` header-record
bytes from the stream at construction time and hands the parse result
through unchanged. -/
theorem binHexArchiveNew_spec (sch : Nat → Nat) (i : Nat) (src : List Nat)
    (hnl : 22 + src.getD 0 0 ≤ src.length) :
    ∃ i', binHexArchiveNew sch i src =
      match binHexHeaderTryFrom (src.take (22 + src.getD 0 0)) with
      | .error e => .error e
      | .ok header => .ok (header, src.drop (22 + src.getD 0 0), i') := by
  obtain ⟨i1, h1⟩ := @Archive.readExact_ok sch src 22 i (by omega)
  have hg : (src.take 22).getD 0 0 = src.getD 0 0 := getD_take_lt src 22 0 0 (by omega)
  obtain ⟨i2, h2⟩ := @Archive.readExact_ok sch (src.drop 22)
    (src.getD 0 0) i1 (by rw [List.length_drop]; omega)
  have hrec : src.take 22 ++ (src.drop 22).take (src.getD 0 0) =
      src.take (22 + src.getD 0 0) := by
    rw [← List.take_add]
  have hdd : (src.drop 22).drop (src.getD 0 0) = src.drop (22 + src.getD 0 0) := by
    rw [List.drop_drop]
  refine ⟨i2, ?_⟩
  simp only [binHexArchiveNew, h1, hg, h2, hrec, hdd]


/-! ## The claims -/

/-- C1: for a valid archive laid out as `data fork ++ data crc ++ resource
fork ++ resource crc` whose stored checksums match, `extract` writes exactly
the data fork to the data sink, then exactly the resource fork to the
resource sink (data first, resource second — `data_fork_length` plus
`resource_fork_length` bytes in total), and succeeds, for every source-read
schedule and destination buffer size. -/
theorem C1_extract_exact_forks (sch : Nat → Nat) (i : Nat) (d cd r cr : List Nat)
    (bufLen : Nat) (hcd : cd.length = 2) (hcr : cr.length = 2) (hbuf : 1 ≤ bufLen)
    (hvd : be16 cd = crc16 d) (hvr : be16 cr = crc16 r) :
    Archive.extract sch i (d ++ cd ++ r ++ cr) d.length r.length bufLen =
      (d, r, .ok ()) := by
  rw [Archive.extract_spec sch i d cd r cr bufLen hcd hcr hbuf, if_pos hvd, if_pos hvr]

theorem C1_witness :
    Archive.extract (fun _ => 1) 0 ([1, 2, 3] ++ [97, 49] ++ [7] ++ [112, 231])
      3 1 1 = ([1, 2, 3], [7], .ok ()) :=
  C1_extract_exact_forks (fun _ => 1) 0 [1, 2, 3] [97, 49] [7] [112, 231] 1
    (by decide) (by decide) (by decide) (by decide) (by decide)

/-- C2: each stage of the decode pipeline produces byte-identical output
under any two chunking schedules (in particular one-byte reads versus a
whole-buffer read): the banner-stripping `EncodedBinHexReader`, the
`BinHexExpander`, and fork extraction over a well-formed fork layout. -/
theorem C2_chunking_invariant (src : List Nat) (dsch1 sch1 dsch2 sch2 : Nat → Nat) :
    BinRead.readAll dsch1 sch1 src = BinRead.readAll dsch2 sch2 src ∧
    Expand.expandToEnd dsch1 sch1 src = Expand.expandToEnd dsch2 sch2 src ∧
    (∀ (i1 i2 bufLen1 bufLen2 : Nat) (d cd r cr : List Nat),
      cd.length = 2 → cr.length = 2 → 1 ≤ bufLen1 → 1 ≤ bufLen2 →
      Archive.extract sch1 i1 (d ++ cd ++ r ++ cr) d.length r.length bufLen1 =
        Archive.extract sch2 i2 (d ++ cd ++ r ++ cr) d.length r.length bufLen2) := by
  refine ⟨?_, ?_, ?_⟩
  · rw [BinRead.readAll_denote, BinRead.readAll_denote]
  · rw [Expand.expandToEnd_denote, Expand.expandToEnd_denote]
  · intro i1 i2 bufLen1 bufLen2 d cd r cr hcd hcr h1 h2
    rw [Archive.extract_spec sch1 i1 d cd r cr bufLen1 hcd hcr h1,
      Archive.extract_spec sch2 i2 d cd r cr bufLen2 hcd hcr h2]

theorem C2_witness :
    BinRead.readAll (fun _ => 1) (fun _ => 1) [1, 2, 3] =
      BinRead.readAll (fun _ => 100) (fun _ => 100) [1, 2, 3] ∧
    Expand.expandToEnd (fun _ => 1) (fun _ => 1) [1, 2, 3] =
      Expand.expandToEnd (fun _ => 100) (fun _ => 100) [1, 2, 3] ∧
    Archive.extract (fun _ => 1) 0 ([1, 2, 3] ++ [97, 49] ++ [7] ++ [112, 231]) 3 1 1 =
      Archive.extract (fun _ => 100) 5 ([1, 2, 3] ++ [97, 49] ++ [7] ++ [112, 231]) 3 1 2 := by
  have h := C2_chunking_invariant [1, 2, 3] (fun _ => 1) (fun _ => 1)
    (fun _ => 100) (fun _ => 100)
  exact ⟨h.1, h.2.1, h.2.2 0 5 1 2 [1, 2, 3] [97, 49] [7] [112, 231]
    (by decide) (by decide) (by decide) (by decide)⟩

/-- C3: the expander implements the RLE contract for every schedule: `B,
0x90, N` with `1 ≤ N ≤ 255` expands to `N` copies of `B` in total, `0x90,
0x00` is the literal byte `0x90`, and concretely `[0x41, 0x90, 0x05]` yields
five `A`s while `[0x41, 0x90, 0x00, 0x42]` yields `0x41, 0x90, 0x42`. -/
theorem C3_rle_contract (dsch sch : Nat → Nat) (b n c : Nat)
    (hb : b ≠ 144) (hn : 1 ≤ n) (hc : c ≠ 144) :
    Expand.expandToEnd dsch sch [b, 144, n] = .ok (List.replicate n b) ∧
    Expand.expandToEnd dsch sch [b, 144, 0, c] = .ok [b, 144, c] ∧
    Expand.expandToEnd dsch sch [65, 144, 5] = .ok [65, 65, 65, 65, 65] ∧
    Expand.expandToEnd dsch sch [65, 144, 0, 66] = .ok [65, 144, 66] := by
  refine ⟨?_, ?_, ?_, ?_⟩
  · rw [Expand.expandToEnd_denote, Expand.denote_rle_triple b n hb hn]
  · rw [Expand.expandToEnd_denote, Expand.denote_literal_escape b c hb hc]
  · rw [Expand.expandToEnd_denote, Expand.denote_rle_triple 65 5 (by decide) (by decide)]
    rfl
  · rw [Expand.expandToEnd_denote, Expand.denote_literal_escape 65 66 (by decide) (by decide)]

theorem C3_witness :
    Expand.expandToEnd (fun _ => 1) (fun _ => 2) [7, 144, 3] = .ok [7, 7, 7] ∧
    Expand.expandToEnd (fun _ => 1) (fun _ => 2) [7, 144, 0, 9] = .ok [7, 144, 9] ∧
    Expand.expandToEnd (fun _ => 1) (fun _ => 2) [65, 144, 5] = .ok [65, 65, 65, 65, 65] := by
  have h := C3_rle_contract (fun _ => 1) (fun _ => 2) 7 3 9
    (by decide) (by decide) (by decide)
  refine ⟨?_, h.2.1, h.2.2.1⟩
  rw [h.1]
  rfl

/-- C4: on a well-formed archive (matching checksums, bytes in range),
flipping any single data-fork byte makes extraction fail with a checksum
mismatch attributed to the data fork only (nothing is delivered to the
resource sink), and flipping any single resource-fork byte fails with a
mismatch attributed to the resource fork only while the data sink has
received exactly the correct data fork. -/
theorem C4_single_flip (sch : Nat → Nat) (i : Nat) (d cd r cr : List Nat)
    (bufLen : Nat) (hcd : cd.length = 2) (hcr : cr.length = 2) (hbuf : 1 ≤ bufLen)
    (hvd : be16 cd = crc16 d) (hvr : be16 cr = crc16 r)
    (hdb : ∀ b ∈ d, b < 256) (hrb : ∀ b ∈ r, b < 256) :
    (∀ j b2 (hj : j < d.length), b2 < 256 → b2 ≠ d.get ⟨j, hj⟩ →
      Archive.extract sch i (d.set j b2 ++ cd ++ r ++ cr) d.length r.length bufLen =
        (d.set j b2, [],
          .error (.invalidChecksum .dataFork (be16 cd) (crc16 (d.set j b2))))) ∧
    (∀ j b2 (hj : j < r.length), b2 < 256 → b2 ≠ r.get ⟨j, hj⟩ →
      Archive.extract sch i (d ++ cd ++ r.set j b2 ++ cr) d.length r.length bufLen =
        (d, r.set j b2,
          .error (.invalidChecksum .resourceFork (be16 cr) (crc16 (r.set j b2))))) := by
  constructor
  · intro j b2 hj hb2 hne
    have hset := crc16_set_ne d j b2 hj hdb hb2 hne
    have hlen : (d.set j b2).length = d.length := List.length_set ..
    have hx := Archive.extract_spec sch i (d.set j b2) cd r cr bufLen hcd hcr hbuf
    rw [hlen] at hx
    rw [hx, if_neg (fun he => hset (by rw [← he]; exact hvd))]
  · intro j b2 hj hb2 hne
    have hset := crc16_set_ne r j b2 hj hrb hb2 hne
    have hlen : (r.set j b2).length = r.length := List.length_set ..
    have hx := Archive.extract_spec sch i d cd (r.set j b2) cr bufLen hcd hcr hbuf
    rw [hlen] at hx
    rw [hx, if_pos hvd, if_neg (fun he => hset (by rw [← he]; exact hvr))]

theorem C4_witness :
    Archive.extract (fun _ => 1) 0
        (([1, 2, 3].set 0 9) ++ [97, 49] ++ [7] ++ [112, 231]) 3 1 1 =
      ([1, 2, 3].set 0 9, [],
        .error (.invalidChecksum .dataFork (be16 [97, 49]) (crc16 ([1, 2, 3].set 0 9)))) ∧
    Archive.extract (fun _ => 1) 0
        ([1, 2, 3] ++ [97, 49] ++ ([7].set 0 8) ++ [112, 231]) 3 1 1 =
      ([1, 2, 3], [7].set 0 8,
        .error (.invalidChecksum .resourceFork (be16 [112, 231]) (crc16 ([7].set 0 8)))) := by
  have h := C4_single_flip (fun _ => 1) 0 [1, 2, 3] [97, 49] [7] [112, 231] 1
    (by decide) (by decide) (by decide) (by decide) (by decide) (by decide) (by decide)
  exact ⟨h.1 0 9 (by decide) (by decide) (by decide),
    h.2 0 8 (by decide) (by decide) (by decide)⟩

/-- C5: header parsing is validated and atomic: a correctly sized
`name_len + 22`-byte record whose stored big-endian checksum differs from
the CRC16/XMODEM (polynomial `0x1021`, initial value 0, no reflection or
final xor — the `crc16` model here) of every byte but the trailing two is
rejected with `ChecksumMismatch(Header, provided, calculated)`, and
whenever the record fails to parse, `BinHexArchive::new` fails with that
same error — no header (and no archive) is ever constructed or cached. -/
theorem C5_header_checksum (sch : Nat → Nat) (i : Nat) (src : List Nat)
    (hnl : 22 + src.getD 0 0 ≤ src.length) :
    (∀ hb : List Nat, hb.length = hb.getD 0 0 + 22 →
      be16 (hb.drop (hb.length - 2)) ≠ crc16 (hb.take (hb.length - 2)) →
      binHexHeaderTryFrom hb =
        .error (.invalidChecksum .header (be16 (hb.drop (hb.length - 2)))
          (crc16 (hb.take (hb.length - 2))))) ∧
    (∀ e, binHexHeaderTryFrom (src.take (22 + src.getD 0 0)) = .error e →
      binHexArchiveNew sch i src = .error e) := by
  constructor
  · intro hb hlen hne
    unfold binHexHeaderTryFrom
    rw [if_neg (by omega), if_pos hne]
  · intro e he
    obtain ⟨i2, hs⟩ := binHexArchiveNew_spec sch i src hnl
    rw [hs, he]

set_option maxRecDepth 10000 in
theorem C5_witness :
    binHexHeaderTryFrom (List.replicate 20 0 ++ [0, 1]) =
      .error (.invalidChecksum .header 1 0) ∧
    binHexArchiveNew (fun _ => 1) 0 (List.replicate 20 0 ++ [0, 1]) =
      .error (.invalidChecksum .header 1 0) := by
  have h := C5_header_checksum (fun _ => 1) 0 (List.replicate 20 0 ++ [0, 1]) (by decide)
  refine ⟨?_, h.2 (.invalidChecksum .header 1 0) (by rfl)⟩
  rw [h.1 (List.replicate 20 0 ++ [0, 1]) (by decide) (by decide)]
  rfl

/-- C6: when a fork's trailing two-byte checksum does not match the CRC16
accumulated over exactly that fork's bytes, `extract` fails with
`ChecksumMismatch(DataFork|ResourceFork, provided, calculated)`, and by the
time the error is returned the full (possibly corrupt) fork — all `length`
bytes — has already been written to that fork's sink (the observable
partial effect). -/
theorem C6_fork_mismatch (sch : Nat → Nat) (i : Nat) (d cd r cr : List Nat)
    (bufLen : Nat) (hcd : cd.length = 2) (hcr : cr.length = 2) (hbuf : 1 ≤ bufLen) :
    (be16 cd ≠ crc16 d →
      Archive.extract sch i (d ++ cd ++ r ++ cr) d.length r.length bufLen =
        (d, [], .error (.invalidChecksum .dataFork (be16 cd) (crc16 d)))) ∧
    (be16 cd = crc16 d → be16 cr ≠ crc16 r →
      Archive.extract sch i (d ++ cd ++ r ++ cr) d.length r.length bufLen =
        (d, r, .error (.invalidChecksum .resourceFork (be16 cr) (crc16 r)))) := by
  constructor
  · intro hne
    rw [Archive.extract_spec sch i d cd r cr bufLen hcd hcr hbuf, if_neg hne]
  · intro hvd hne
    rw [Archive.extract_spec sch i d cd r cr bufLen hcd hcr hbuf, if_pos hvd,
      if_neg hne]

theorem C6_witness :
    Archive.extract (fun _ => 1) 0 ([1, 2, 3] ++ [0, 0] ++ [7] ++ [112, 231]) 3 1 1 =
      ([1, 2, 3], [],
        .error (.invalidChecksum .dataFork (be16 [0, 0]) (crc16 [1, 2, 3]))) ∧
    Archive.extract (fun _ => 1) 0 ([1, 2, 3] ++ [97, 49] ++ [7] ++ [0, 0]) 3 1 1 =
      ([1, 2, 3], [7],
        .error (.invalidChecksum .resourceFork (be16 [0, 0]) (crc16 [7]))) := by
  have h1 := C6_fork_mismatch (fun _ => 1) 0 [1, 2, 3] [0, 0] [7] [112, 231] 1
    (by decide) (by decide) (by decide)
  have h2 := C6_fork_mismatch (fun _ => 1) 0 [1, 2, 3] [97, 49] [7] [0, 0] 1
    (by decide) (by decide) (by decide)
  exact ⟨h1.1 (by decide), h2.2 (by decide) (by decide)⟩

/-- C7 counterexample (refutes the original classification): the
trailing-escape failure is a hard error of io kind `InvalidData`, and the
archive's error conversion (`From<io::Error>`) turns every io error into
`IoError(kind)` — so this malformation surfaces as `IoError(InvalidData)`,
which is not the dedicated malformed-data variant `BinHexError::InvalidData`
(extraction never constructs that variant). -/
theorem C7_counterexample :
    Expand.expandToEnd (fun _ => 1) (fun _ => 1) [65, 144] = .err .invalidData ∧
    binHexErrorOfIo .invalidData ≠ BinHexError.invalidData := by
  constructor
  · rw [Expand.expandToEnd_denote]
    exact Expand.denote_trailing_escape 65 (by decide)
  · decide

/-- C7 (amended): a source exhausted immediately after an RLE escape makes
expansion fail with a hard error of io kind `InvalidData` for every
schedule, and the archive error conversion wraps that io error as
`IoError(InvalidData)` rather than as the `BinHexError::InvalidData`
malformed-data variant. -/
theorem C7_amended_thm (dsch sch : Nat → Nat) (b : Nat) (hb : b ≠ 144) :
    Expand.expandToEnd dsch sch [b, 144] = .err .invalidData ∧
    binHexErrorOfIo .invalidData = .ioError .invalidData := by
  refine ⟨?_, rfl⟩
  rw [Expand.expandToEnd_denote]
  exact Expand.denote_trailing_escape b hb

theorem C7_witness :
    Expand.expandToEnd (fun _ => 2) (fun _ => 3) [65, 144] = .err .invalidData ∧
    binHexErrorOfIo .invalidData = .ioError .invalidData :=
  C7_amended_thm (fun _ => 2) (fun _ => 3) 65 (by decide)

/-- C8: the reader tolerates an arbitrary preamble in which no banner
occurrence starts (the output is unchanged, under any schedules on either
side), and when the banner — or the `:` that must follow it — never
appears in the input, reading fails with the reader's end-of-stream error
(`UnexpectedEof`, the collapsed banner-related failure the spec sanctions)
rather than succeeding. -/
theorem C8_banner_scanning (dsch sch dsch2 sch2 : Nat → Nat) (pre input : List Nat) :
    ((∀ j, j < pre.length →
        ¬(BinRead.BANNER.isPrefixOf (pre.drop j ++ input) = true)) →
      BinRead.readAll dsch sch (pre ++ input) = BinRead.readAll dsch2 sch2 input) ∧
    (BinRead.dropBannerSuffix input = none →
      BinRead.readAll dsch sch input = .error .unexpectedEof) ∧
    (∀ t, BinRead.dropBannerSuffix input = some t →
      BinRead.dropThroughColon t = none →
      BinRead.readAll dsch sch input = .error .unexpectedEof) := by
  refine ⟨?_, ?_, ?_⟩
  · intro hpre
    rw [BinRead.readAll_denote, BinRead.readAll_denote]
    exact BinRead.stripPure_pre input hpre
  · intro hnone
    rw [BinRead.readAll_denote]
    unfold BinRead.stripPure
    exact BinRead.denoteBanner_none hnone
  · intro t hsome hnc
    rw [BinRead.readAll_denote]
    unfold BinRead.stripPure
    rw [BinRead.denoteBanner_some hsome]
    exact BinRead.denoteColon_none hnc

theorem C8_witness :
    BinRead.readAll (fun _ => 1) (fun _ => 1)
        ([40, 40] ++ (BinRead.BANNER ++ [58, 65, 58])) =
      BinRead.readAll (fun _ => 7) (fun _ => 9) (BinRead.BANNER ++ [58, 65, 58]) ∧
    BinRead.readAll (fun _ => 1) (fun _ => 1) [1, 2, 3] = .error .unexpectedEof ∧
    BinRead.readAll (fun _ => 1) (fun _ => 1) BinRead.BANNER = .error .unexpectedEof := by
  have h1 := C8_banner_scanning (fun _ => 1) (fun _ => 1) (fun _ => 7) (fun _ => 9)
    [40, 40] (BinRead.BANNER ++ [58, 65, 58])
  have h2 := C8_banner_scanning (fun _ => 1) (fun _ => 1) (fun _ => 7) (fun _ => 9)
    [] [1, 2, 3]
  have h3 := C8_banner_scanning (fun _ => 1) (fun _ => 1) (fun _ => 7) (fun _ => 9)
    [] BinRead.BANNER
  exact ⟨h1.1 (by decide), h2.2.1 (by decide), h3.2.2 [] (by decide) rfl⟩

set_option maxRecDepth 10000 in
/-- C9 counterexample (refutes laziness): `BinHexArchive::new` parses the
header eagerly — constructing the archive over a valid 22-byte header
record followed by one extra byte consumes exactly the record and returns
the already-parsed header, before any accessor is called. -/
theorem C9_counterexample :
    ∃ i2, binHexArchiveNew (fun _ => 100) 0 (List.replicate 22 0 ++ [5]) =
      .ok ({ name := [], fileType := [0, 0, 0, 0], creator := [0, 0, 0, 0],
             flag := 0, dataForkLength := 0, resourceForkLength := 0 }, [5], i2) := by
  obtain ⟨i2, hs⟩ := binHexArchiveNew_spec (fun _ => 100) 0
    (List.replicate 22 0 ++ [5]) (by decide)
  refine ⟨i2, ?_⟩
  have htf : binHexHeaderTryFrom ((List.replicate 22 0 ++ [5]).take
      (22 + (List.replicate 22 0 ++ [5]).getD 0 0)) =
      .ok { name := [], fileType := [0, 0, 0, 0], creator := [0, 0, 0, 0],
            flag := 0, dataForkLength := 0, resourceForkLength := 0 } := by rfl
  rw [hs, htf]
  rfl

/-- C9 (amended): the header is parsed eagerly, at construction, and
exactly once: whenever the `name_len + 22`-byte record parses,
`BinHexArchive::new` has already consumed precisely that record and stores
the parsed header, and every accessor is a pure projection of the stored
header that performs no further stream access. -/
theorem C9_eager_header (sch : Nat → Nat) (i : Nat) (src : List Nat)
    (hnl : 22 + src.getD 0 0 ≤ src.length) :
    (∀ header : BinHexHeader,
      binHexHeaderTryFrom (src.take (22 + src.getD 0 0)) = .ok header →
      ∃ i2, binHexArchiveNew sch i src =
        .ok (header, src.drop (22 + src.getD 0 0), i2)) ∧
    (∀ header : BinHexHeader,
      filename header = header.name ∧ file_type header = header.fileType ∧
      creator header = header.creator ∧ flags header = header.flag ∧
      data_fork_len header = header.dataForkLength ∧
      resource_fork_len header = header.resourceForkLength) := by
  constructor
  · intro header htf
    obtain ⟨i2, hs⟩ := binHexArchiveNew_spec sch i src hnl
    refine ⟨i2, ?_⟩
    rw [hs, htf]
  · intro header
    exact ⟨rfl, rfl, rfl, rfl, rfl, rfl⟩

set_option maxRecDepth 10000 in
theorem C9_witness :
    (∃ i2, binHexArchiveNew (fun _ => 100) 0 (List.replicate 22 0 ++ [5]) =
      .ok ({ name := [], fileType := [0, 0, 0, 0], creator := [0, 0, 0, 0],
             flag := 0, dataForkLength := 0, resourceForkLength := 0 },
        (List.replicate 22 0 ++ [5]).drop
          (22 + (List.replicate 22 0 ++ [5]).getD 0 0), i2)) ∧
    filename { name := [6], fileType := [0, 0, 0, 0], creator := [0, 0, 0, 0],
               flag := 0, dataForkLength := 0, resourceForkLength := 0 } = [6] := by
  have h := C9_eager_header (fun _ => 100) 0 (List.replicate 22 0 ++ [5]) (by decide)
  exact ⟨h.1 { name := [], fileType := [0, 0, 0, 0], creator := [0, 0, 0, 0],
               flag := 0, dataForkLength := 0, resourceForkLength := 0 } (by rfl),
    (h.2 { name := [6], fileType := [0, 0, 0, 0], creator := [0, 0, 0, 0],
           flag := 0, dataForkLength := 0, resourceForkLength := 0 }).1⟩

/-- C10: the expander's `read` is not panic-free: a compressed stream
beginning with the escape byte `0x90` followed by a nonzero run length —
the expander still in `Scan(None)`, with no previously copied byte
remembered — drives `State::advance` from `Escape(None)` on
`FoundRunLength` into the catch-all `panic!`, for every schedule, so `read`
returns neither `Ok` nor `Err`. -/
theorem C10_escape_panic (dsch sch : Nat → Nat) (n : Nat) (rest : List Nat)
    (hn : n ≠ 0) :
    Expand.expandToEnd dsch sch (144 :: n :: rest) = .panicked := by
  rw [Expand.expandToEnd_denote]
  exact Expand.denote_escape_none_run n rest hn

theorem C10_witness :
    Expand.expandToEnd (fun _ => 1) (fun _ => 1) [144, 5] = .panicked :=
  C10_escape_panic (fun _ => 1) (fun _ => 1) 5 [] (by decide)
